import Mathlib

/-!
Verification of the apt-history log parser and query engine.

The development shallowly embeds the two Rust source files of the repository:
`src/history.rs` (log discovery, record parser, package index builder, query
engine) and `src/main.rs` (the earlier single-file variant with the legacy
`info` subcommand).

Modelling conventions:
* Rust `String` is Lean `String`; where the Rust code slices by bytes we work
  on `String.data : List Char`, which coincides with byte indexing for the
  ASCII content these logs carry.
* `HashMap` is an insertion-ordered association list (`List (key × value)`)
  whose `insert` replaces the value of an existing key in place; `HashSet` is
  a duplicate-free list with append-if-absent insertion.  All uses in the
  source either sort before output or are order-independent, so the
  association-list model is observationally faithful.
* Panics (`unwrap` / `expect` / `panic!`) are modelled as `Except.error`;
  an `Except.error` result of an embedded function means the Rust process
  aborts.
* `chrono::NaiveDateTime` values are represented by their source text:
  the parsed timestamp is a function of the log text and no claim depends on
  calendar arithmetic, only on which record a date field originates from.
  Date-parse failures (a panic in the source) are therefore not modelled.
* `u32` / `i32` arithmetic is `Nat` / `Int`; casts that can genuinely wrap in
  the claims' scope (the `i32`-to-`u32` cast in selector resolution) carry an
  explicit `% 2^32`, and theorems touching counters state the store-size
  bounds under which `u32` counters cannot wrap.
-/

namespace AptHistory

/-- `src/history.rs` constant `MAX_COMMAND_LINE_LEN`. -/
def MAX_COMMAND_LINE_LEN : Nat := 100

/-- `src/history.rs` constant `COMMAND_LINE_ELLIPSIS`. -/
def COMMAND_LINE_ELLIPSIS : String := " <...>"

/-- `src/history.rs` constant `CURRENT_HISTORY_FILE`. -/
def CURRENT_HISTORY_FILE : String := "history.log"

/-- Rust `str::split(": ")`: split a character list at every (non-overlapping,
leftmost-first) occurrence of `": "`.  Specialised to the two-character
separator so that it is structurally recursive and kernel-computable. -/
def splitColonSpace : List Char → List (List Char)
  | ':' :: ' ' :: rest => [] :: splitColonSpace rest
  | c :: rest =>
    match splitColonSpace rest with
    | [] => [[c]]
    | h :: t => (c :: h) :: t
  | [] => [[]]

/-- Rust `str::split(":")` on a character list. -/
def splitColon : List Char → List (List Char)
  | ':' :: rest => [] :: splitColon rest
  | c :: rest =>
    match splitColon rest with
    | [] => [[c]]
    | h :: t => (c :: h) :: t
  | [] => [[]]

/-- Rust `str::split(".")` on a character list. -/
def splitDot : List Char → List (List Char)
  | '.' :: rest => [] :: splitDot rest
  | c :: rest =>
    match splitDot rest with
    | [] => [[c]]
    | h :: t => (c :: h) :: t
  | [] => [[]]

/-- `Iterator::last` of the remaining fields after `nth(0)` consumed the
first: the last element of a (nonempty) list, with a default for the
impossible empty case. -/
def lastValue : List (List Char) → List Char
  | [] => []
  | [x] => x
  | _ :: x :: xs => lastValue (x :: xs)

/-- A `HashSet<String>`: duplicate-free list, `insert` appends if absent. -/
def setInsert (s : List String) (x : String) : List String :=
  if x ∈ s then s else s ++ [x]

/-- `HashMap` lookup. -/
def alistLookup {α : Type} (m : List (String × α)) (k : String) : Option α :=
  match m with
  | [] => none
  | (k2, v) :: rest => if k2 = k then some v else alistLookup rest k

/-- `HashMap::insert`: replace the value of an existing key in place,
otherwise append the new binding.  Note that an existing value is
*replaced*, not merged. -/
def alistInsert {α : Type} (m : List (String × α)) (k : String) (v : α) :
    List (String × α) :=
  match m with
  | [] => [(k, v)]
  | (k2, w) :: rest =>
    if k2 = k then (k2, v) :: rest else (k2, w) :: alistInsert rest k v

/-- architecture → set of package names (`HashMap<String, HashSet<String>>`). -/
abbrev ArchMap := List (String × List String)

/-- action → architecture → package set
(`HashMap<String, HashMap<String, HashSet<String>>>`). -/
abbrev PackageMap := List (String × ArchMap)

/-- `src/history.rs` struct `HistoryEntry`.  Dates are kept as the raw
field text (see the header comment). -/
structure HistoryEntry where
  affected : PackageMap
  altered : Nat
  command_line : String
  end_date : String
  id : Nat
  start_date : String
  deriving DecidableEq, Repr

/-- `HistoryEntry::new()` / `Default` impl: empty maps, empty strings, id 0.
The `Local::now()` placeholder dates of the source are represented by the
empty string; they are only observable for records missing a date line. -/
def HistoryEntry.new : HistoryEntry :=
  { affected := [], altered := 0, command_line := "", end_date := "",
    id := 0, start_date := "" }

instance : Inhabited HistoryEntry := ⟨HistoryEntry.new⟩

/-- The truncation step of `finalize_entry` (`src/history.rs` lines 71–75):
slice to `MAX_COMMAND_LINE_LEN - COMMAND_LINE_ELLIPSIS.len()` and append the
ellipsis when over-long. -/
def truncateCommandLine (s : String) : String :=
  if s.data.length > MAX_COMMAND_LINE_LEN then
    String.mk (s.data.take (MAX_COMMAND_LINE_LEN - COMMAND_LINE_ELLIPSIS.data.length)
      ++ COMMAND_LINE_ELLIPSIS.data)
  else s

/-- The command-line normalisation inside `finalize_entry`
(`src/history.rs` lines 70–78): truncate, then strip a leading `"apt "`. -/
def finalizeCommandLine (s : String) : String :=
  let s1 := truncateCommandLine s
  if "apt ".data.isPrefixOf s1.data then String.mk (s1.data.drop 4) else s1

/-- The `altered` computation inside `finalize_entry` (lines 81–87): sum of
the sizes of every architecture-keyed package set over every action. -/
def sumSizes (package_map : PackageMap) : Nat :=
  (package_map.map (fun p => (p.2.map (fun q => q.2.length)).sum)).sum

/-- `src/history.rs` `finalize_entry` (lines 63–89). -/
def finalize_entry (entry : HistoryEntry) (index : Nat)
    (package_map : PackageMap) : HistoryEntry :=
  { entry with
    id := index,
    command_line := finalizeCommandLine entry.command_line,
    altered := sumSizes package_map,
    affected := package_map }

/-- `src/history.rs` `add_parsed_package` (lines 91–111): split a token on
`":"` into name and architecture (panicking — `Except.error` — when the
architecture field is absent) and insert the name into that architecture's
set. -/
def add_parsed_package (packages : ArchMap) (package : String) :
    Except String ArchMap :=
  let fields := splitColon package.data
  match fields with
  | [] => .error "Unable to parse package name"
  | [_] => .error "Unable to parse package architecture"
  | name :: arch :: _ =>
    let name := String.mk name
    let arch := String.mk arch
    match alistLookup packages arch with
    | some set => .ok (alistInsert packages arch (setInsert set name))
    | none => .ok (packages ++ [(arch, [name])])

/-- The character scan of `packages_from_action_line` (lines 118–135): state
is (accumulated map, current token, `inside_parens`). -/
def scanChars : List Char → ArchMap → String → Bool →
    Except String (ArchMap × String × Bool)
  | [], packages, package, ip => .ok (packages, package, ip)
  | c :: cs, packages, package, ip =>
    if c = ' ' then scanChars cs packages package ip
    else if c = '(' then scanChars cs packages package true
    else if c = ')' then scanChars cs packages package false
    else if c = ',' then
      if ip then scanChars cs packages package ip
      else
        match add_parsed_package packages package with
        | .error e => .error e
        | .ok packages => scanChars cs packages "" ip
    else
      if ip then scanChars cs packages package ip
      else scanChars cs packages (package.push c) ip

/-- `src/history.rs` `packages_from_action_line` (lines 113–140): run the
scan, then flush the final token (the line does not end with a comma). -/
def packages_from_action_line (line : String) : Except String ArchMap :=
  match scanChars line.data [] "" false with
  | .error e => .error e
  | .ok (packages, package, _) => add_parsed_package packages package

/-- Parser state of the loop in `entries_from_file` (lines 151–155):
the finished entries, the in-progress entry, the next ID, the
seen-a-blank-line flag, and the in-progress package map. -/
structure ParseState where
  entries : List HistoryEntry
  entry : HistoryEntry
  index : Nat
  seen_entry : Bool
  package_map : PackageMap
  deriving DecidableEq, Repr

/-- Split a non-blank line into descriptor and value: `line.split(": ")`,
descriptor = `nth(0)`, value = `last()` of the *remaining* fields, which
panics (`.error`) when the separator is absent. -/
def parseFields (line : String) : Except String (String × String) :=
  match splitColonSpace line.data with
  | [] => .error "impossible: split is never empty"
  | [_] => .error ("error processing line `" ++ line ++ "`")
  | d :: v :: rest => .ok (String.mk d, String.mk (lastValue (v :: rest)))

/-- The `match descriptor` arm dispatch of `entries_from_file`
(lines 180–198), acting on the in-progress entry and package map only. -/
def dispatchField (entry : HistoryEntry) (package_map : PackageMap)
    (descriptor value : String) : Except String (HistoryEntry × PackageMap) :=
  if descriptor = "Commandline" then
    .ok ({ entry with command_line := value }, package_map)
  else if descriptor = "End-Date" then
    .ok ({ entry with end_date := value }, package_map)
  else if descriptor = "Start-Date" then
    .ok ({ entry with start_date := value }, package_map)
  else if descriptor = "Install" ∨ descriptor = "Purge" ∨
      descriptor = "Reinstall" ∨ descriptor = "Remove" ∨
      descriptor = "Upgrade" then
    match packages_from_action_line value with
    | .error e => .error e
    | .ok packages =>
      .ok (entry, alistInsert package_map descriptor packages)
  else if descriptor = "Error" ∨ descriptor = "Requested-By" then
    .ok (entry, package_map)
  else .error ("unknown field " ++ descriptor)

/-- Split a non-blank line and dispatch on its descriptor. -/
def stepFields (entry : HistoryEntry) (package_map : PackageMap)
    (line : String) : Except String (HistoryEntry × PackageMap) :=
  match parseFields line with
  | .error e => .error e
  | .ok (descriptor, value) => dispatchField entry package_map descriptor value

/-- One iteration of the line loop of `entries_from_file` (lines 157–199). -/
def processLine (st : ParseState) (line : String) : Except String ParseState :=
  if line = "" then
    if st.seen_entry = false then .ok { st with seen_entry := true }
    else
      .ok { entries := st.entries ++ [finalize_entry st.entry st.index st.package_map],
            entry := HistoryEntry.new,
            index := st.index + 1,
            seen_entry := st.seen_entry,
            package_map := [] }
  else
    match stepFields st.entry st.package_map line with
    | .error e => .error e
    | .ok (entry, package_map) =>
      .ok { st with entry := entry, package_map := package_map }

/-- The whole line loop: fold `processLine` over the lines, stopping at the
first panic. -/
def runLines : ParseState → List String → Except String ParseState
  | st, [] => .ok st
  | st, l :: ls =>
    match processLine st l with
    | .error e => .error e
    | .ok st2 => runLines st2 ls

/-- `src/history.rs` `entries_from_file` (lines 142–208) on the file's line
list: run the loop from the initial state, then emit the trailing record when
its raw command line is non-empty (lines 201–206). -/
def entries_from_file (lines : List String) (index_start : Nat) :
    Except String (List HistoryEntry) :=
  match runLines ⟨[], HistoryEntry.new, index_start, false, []⟩ lines with
  | .error e => .error e
  | .ok st =>
    if st.entry.command_line ≠ "" then
      .ok (st.entries ++ [finalize_entry st.entry st.index st.package_map])
    else .ok st.entries

/-- Variant of `entries_from_file` whose initial state already has the
`seen_entry` flag set: the parser's behaviour after the presumed leading
separator has been consumed.  Used to state what the leading-blank handling
does to a file whose first line is non-blank. -/
def entriesFromFileSeen (lines : List String) (index_start : Nat) :
    Except String (List HistoryEntry) :=
  match runLines ⟨[], HistoryEntry.new, index_start, true, []⟩ lines with
  | .error e => .error e
  | .ok st =>
    if st.entry.command_line ≠ "" then
      .ok (st.entries ++ [finalize_entry st.entry st.index st.package_map])
    else .ok st.entries

/-- The per-file loop of `history_entries` (lines 252–262): thread the next
ID through the chronologically ordered files, skipping files that yield no
entries.  The directory scan itself (lines 242–250) is I/O; its result is the
`files` argument (each file given by its line list). -/
def combineFilesAux : Nat → List (List String) →
    Except String (List HistoryEntry)
  | _, [] => .ok []
  | id, f :: fs =>
    match entries_from_file f id with
    | .error e => .error e
    | .ok entries =>
      if entries.length = 0 then combineFilesAux id fs
      else
        match combineFilesAux (id + entries.length) fs with
        | .error e => .error e
        | .ok rest => .ok (entries ++ rest)

/-- `src/history.rs` `history_entries` (lines 238–265) applied to the sorted
file contents: IDs start at 1. -/
def history_entries (files : List (List String)) :
    Except String (List HistoryEntry) :=
  combineFilesAux 1 files

/-- `src/history.rs` `log_file_num` (lines 214–219): field 2 of the
dot-split name, parsed as a `u32`; `none` models the two `expect` panics
(missing field / unparsable number). -/
def log_file_num (f : String) : Option Nat :=
  match (splitDot f.data).get? 2 with
  | none => none
  | some num_field =>
    match num_field with
    | [] => none
    | _ =>
      if num_field.all Char.isDigit then
        let n := num_field.foldl (fun acc c => acc * 10 + (c.toNat - 48)) 0
        if n < 2 ^ 32 then some n else none
      else none

/-- `src/history.rs` `sort_log_files` (lines 221–236) on file names:
the current (unsuffixed) file compares greater than everything, and suffixed
files compare by their numeric suffix reversed.  `none` models the panic of
`log_file_num` on a name with no parsable number field. -/
def sortCmp (a b : String) : Option Ordering :=
  if a = CURRENT_HISTORY_FILE then some .gt
  else if b = CURRENT_HISTORY_FILE then some .lt
  else
    match log_file_num a, log_file_num b with
    | some a_num, some b_num => some (compare a_num b_num).swap
    | _, _ => none

/-- One insertion step of a stable insertion sort by `sortCmp`: the new
element passes every element it does not compare strictly less than, so
equal elements keep their original relative order, as with Rust's stable
`sort_by`. -/
def insertSorted (a : String) : List String → Option (List String)
  | [] => some [a]
  | b :: bs =>
    match sortCmp a b with
    | none => none
    | some .lt => some (a :: b :: bs)
    | some _ =>
      match insertSorted a bs with
      | none => none
      | some out => some (b :: out)

/-- `history_files.sort_by(sort_log_files)` (line 250), modelled as a stable
insertion sort; `none` propagates a comparator panic. -/
def sort_log_files (l : List String) : Option (List String) :=
  l.foldlM (fun acc a => insertSorted a acc) []

/-- Digit-run part of Rust `str::parse::<i32>()`: nonempty digit run, value
(after applying the sign) within the `i32` range. -/
def parseI32core (sign : Int) (digits : List Char) : Option Int :=
  match digits with
  | [] => none
  | _ =>
    if digits.all Char.isDigit then
      let n : Int := digits.foldl (fun acc c => acc * 10 + ((c.toNat : Int) - 48)) 0
      if -(2 ^ 31) ≤ sign * n ∧ sign * n < 2 ^ 31 then some (sign * n) else none
    else none

/-- Rust `str::parse::<i32>()`: optional sign, nonempty digit run, value
within the `i32` range; `none` is the `Err` case (the selector is then
treated as a package name). -/
def parseI32 (s : String) : Option Int :=
  match s.data with
  | '+' :: cs => parseI32core 1 cs
  | '-' :: cs => parseI32core (-1) cs
  | cs => parseI32core 1 cs

/-- Wrap an integer into the `i32` value range (two's-complement). -/
def toI32 (x : Int) : Int := (x + 2 ^ 31) % 2 ^ 32 - 2 ^ 31

/-- Selector resolution inside `matching_entries` (lines 361–367): a parsed
integer `v ≤ 0` is shifted by `max_id as i32` (release-mode wrapping add),
then cast `as u32`; a positive integer is cast directly. -/
def resolveTid (maxId : Nat) (v : Int) : Nat :=
  let tid := if v ≤ 0 then toI32 (toI32 (maxId : Int) + v) else v
  (tid % 2 ^ 32).toNat

/-- The selector-partitioning loop of `matching_entries` (lines 358–370):
integers become resolved IDs, everything else a package name. -/
def buildSelectors (maxId : Nat) (transactions : List String) :
    List Nat × List String :=
  transactions.foldl
    (fun acc t =>
      match parseI32 t with
      | some v => (if resolveTid maxId v ∈ acc.1 then acc.1 else acc.1 ++ [resolveTid maxId v], acc.2)
      | none => (acc.1, setInsert acc.2 t))
    ([], [])

/-- `src/history.rs` `matches` (lines 332–347): ID membership, or a
non-empty intersection between the query package set and any affected
package set. -/
def matchesEntry (entry : HistoryEntry) (ids : List Nat)
    (packages : List String) : Bool :=
  entry.id ∈ ids ||
    entry.affected.any (fun p => p.2.any (fun q => q.2.any (packages.contains ·)))

/-- `src/history.rs` `matching_entries` (lines 349–377) over a given store:
a missing query falls back to the single selector `max_id.to_string()`. -/
def matching_entries (entries : List HistoryEntry)
    (query : Option (List String)) : List HistoryEntry :=
  let max_id := entries.length % 2 ^ 32
  let transactions := query.getD [toString max_id]
  let sel := buildSelectors max_id transactions
  entries.filter (fun e => matchesEntry e sel.1 sel.2)

/-- First character of an action word as a string
(`a.chars().nth(0)` in `list`, line 416; the action words of parsed entries
are never empty, so the `expect` cannot fire and the empty-string default of
this model is unreachable there). -/
def firstInitial (a : String) : String := String.mk (a.data.take 1)

/-- Strict lexicographic order on character lists, Rust's `Ord` for strings
(byte-wise; identical to character-wise on the ASCII data at hand). -/
def lexLt : List Char → List Char → Bool
  | [], [] => false
  | [], _ :: _ => true
  | _ :: _, [] => false
  | a :: as, b :: bs =>
    if a.toNat < b.toNat then true
    else if b.toNat < a.toNat then false
    else lexLt as bs

/-- The corresponding non-strict string order. -/
def strLe (a b : String) : Bool := !lexLt b.data a.data

/-- Stable insertion step for the `initials.sort()` call of `list`
(line 422): the inserted element passes everything that is `≤` it. -/
def insertLe (a : String) : List String → List String
  | [] => [a]
  | b :: bs => if strLe b a then b :: insertLe a bs else a :: b :: bs

/-- `Vec::sort` on strings (stable, lexicographic). -/
def sortStrings (l : List String) : List String :=
  l.foldl (fun acc a => insertLe a acc) []

/-- Rust `Vec::join(sep)`. -/
def joinSep (sep : String) : List String → String
  | [] => ""
  | [x] => x
  | x :: y :: rest => x ++ sep ++ joinSep sep (y :: rest)

/-- The `Action(s)` cell computation of `src/history.rs` `list`
(lines 406–425): the full action word for a single-action transaction,
otherwise the sorted, comma-joined list of the actions' first letters. -/
def actionSummary (entry : HistoryEntry) : String :=
  let actions := entry.affected.map Prod.fst
  match actions with
  | [a] => a
  | _ =>
    let initials := actions.map firstInitial
    joinSep ", " (sortStrings initials)

/-- `src/main.rs` struct `HistoryEntry` (the legacy single-file variant):
`action` and `affected` are plain strings there. -/
structure MainHistoryEntry where
  action : String
  altered : Nat
  affected : String
  command_line : String
  end_date : String
  start_date : String
  id : Nat
  deriving DecidableEq, Repr

/-- `src/main.rs` `get_affected` (lines 137–171): collect the package tokens
preceding each opening parenthesis, skipping parenthesised content and the
single character following a closing parenthesis. -/
def get_affected (affected : String) : List String :=
  let step := fun (st : String × Bool × Bool × List String) (c : Char) =>
    let (out, discard_next, inside_parens, pkgs) := st
    if c = '(' then ("", discard_next, true, pkgs ++ [out.trim])
    else if c = ')' then (out, true, false, pkgs)
    else if inside_parens then (out, discard_next, inside_parens, pkgs)
    else if discard_next then (out, false, inside_parens, pkgs)
    else (out.push c, discard_next, inside_parens, pkgs)
  (affected.data.foldl step ("", false, false, [])).2.2.2

/-- `src/main.rs` `info` (lines 173–179): unwrap the ID argument, index the
store at `id - 1` and unwrap again, then render the altered-packages line.
Each `.error` models a panic (a process crash): a missing ID argument, the
`usize` underflow of `id - 1` at `id = 0`, or `Option::unwrap` on `None`
when `id` exceeds the store size.  No "no such entry" path exists. -/
def main_info (entries : List MainHistoryEntry) : Option Nat →
    Except String String
  | none => .error "called Option::unwrap() on a None value"
  | some id =>
    if id = 0 then .error "attempt to subtract with overflow"
    else
      match entries.get? (id - 1) with
      | none => .error "called Option::unwrap() on a None value"
      | some entry =>
        .ok ("Packages Altered:\n    " ++ entry.action ++ " "
          ++ joinSep " " (get_affected entry.affected))

/-! ### Helper lemmas -/

lemma alistLookup_insert {α : Type} (m : List (String × α)) (k : String) (v : α) :
    alistLookup (alistInsert m k v) k = some v := by
  induction m with
  | nil => simp [alistInsert, alistLookup]
  | cons p rest ih =>
    obtain ⟨k2, w⟩ := p
    by_cases h : k2 = k
    · simp [alistInsert, alistLookup, h]
    · simp [alistInsert, alistLookup, h, ih]

/-- The `(package, architecture)` pairs of a package map, with the action
dimension forgotten: what "distinct pairs across all actions" quantifies
over. -/
def pairsNoAction (pm : PackageMap) : List (String × String) :=
  pm.flatMap (fun p => p.2.flatMap (fun q => q.2.map (fun name => (name, q.1))))

lemma archPairs_length (am : ArchMap) :
    (am.flatMap (fun q => q.2.map (fun name => (name, q.1)))).length =
      (am.map (fun q => q.2.length)).sum := by
  induction am with
  | nil => rfl
  | cons q rest ih => simp [List.flatMap_cons, ih]

lemma pairsNoAction_length (pm : PackageMap) :
    (pairsNoAction pm).length = sumSizes pm := by
  induction pm with
  | nil => rfl
  | cons p rest ih =>
    simp only [pairsNoAction, sumSizes, List.flatMap_cons, List.length_append,
      List.map_cons, List.sum_cons] at *
    rw [archPairs_length, ih]

/-! ### C10 -/

lemma truncateCommandLine_long (s : String) (h : MAX_COMMAND_LINE_LEN < s.data.length) :
    (truncateCommandLine s).data =
      s.data.take 94 ++ COMMAND_LINE_ELLIPSIS.data := by
  have h94 : MAX_COMMAND_LINE_LEN - COMMAND_LINE_ELLIPSIS.data.length = 94 := by decide
  unfold truncateCommandLine
  rw [if_pos h, h94]

lemma truncateCommandLine_long_length (s : String)
    (h : MAX_COMMAND_LINE_LEN < s.data.length) :
    (truncateCommandLine s).data.length = MAX_COMMAND_LINE_LEN := by
  rw [truncateCommandLine_long s h]
  have h6 : COMMAND_LINE_ELLIPSIS.data.length = 6 := by decide
  rw [List.length_append, List.length_take, h6]
  have : MAX_COMMAND_LINE_LEN = 100 := by decide
  omega

lemma finalizeCommandLine_data (s : String) :
    (finalizeCommandLine s).data =
      if "apt ".data.isPrefixOf (truncateCommandLine s).data then
        (truncateCommandLine s).data.drop 4
      else (truncateCommandLine s).data := by
  unfold finalizeCommandLine
  by_cases h : "apt ".data.isPrefixOf (truncateCommandLine s).data <;> simp [h]

lemma apt_prefixOf_truncate (s : String) (h : "apt ".data <+: s.data) :
    "apt ".data.isPrefixOf (truncateCommandLine s).data = true := by
  rw [ List.isPrefixOf_iff_prefix]
  by_cases hl : MAX_COMMAND_LINE_LEN < s.data.length
  · rw [truncateCommandLine_long s hl]
    obtain ⟨t, ht⟩ := h
    rw [← ht, List.take_append_eq_append_take]
    have h4 : ("apt ".data.take 94) = "apt ".data := List.take_of_length_le (by decide)
    rw [h4, List.append_assoc]
    exact List.prefix_append _ _
  · unfold truncateCommandLine
    rw [if_neg hl]
    exact h

/-- C10: for every finalized transaction, a raw command line longer than the
fixed maximum (`MAX_COMMAND_LINE_LEN = 100`) is truncated with the ellipsis
marker `" <...>"` appended, and the result never exceeds the maximum total
length; a literal leading `"apt "`, when present, is stripped from the
(truncated) result. -/
theorem claim_c10_truncation_and_strip (entry : HistoryEntry) (index : Nat)
    (pm : PackageMap) :
    (MAX_COMMAND_LINE_LEN < entry.command_line.data.length →
      (finalize_entry entry index pm).command_line.data.length ≤ MAX_COMMAND_LINE_LEN ∧
      COMMAND_LINE_ELLIPSIS.data <:+ (finalize_entry entry index pm).command_line.data) ∧
    ("apt ".data <+: entry.command_line.data →
      (finalize_entry entry index pm).command_line.data =
        (truncateCommandLine entry.command_line).data.drop 4) := by
  have hfe : (finalize_entry entry index pm).command_line =
      finalizeCommandLine entry.command_line := rfl
  constructor
  · intro h
    rw [hfe, finalizeCommandLine_data]
    have hl := truncateCommandLine_long entry.command_line h
    have hlen := truncateCommandLine_long_length entry.command_line h
    have h100 : MAX_COMMAND_LINE_LEN = 100 := by decide
    have htk : (entry.command_line.data.take 94).length = 94 := by
      rw [List.length_take]; omega
    by_cases hp : "apt ".data.isPrefixOf (truncateCommandLine entry.command_line).data
    · rw [if_pos hp]
      refine ⟨?_, ?_⟩
      · rw [List.length_drop, hlen]; omega
      · rw [hl, List.drop_append_eq_append_drop, htk]
        have hz : 4 - 94 = 0 := by decide
        rw [hz, List.drop_zero]
        exact List.suffix_append _ _
    · rw [if_neg hp]
      refine ⟨by omega, ?_⟩
      rw [hl]
      exact List.suffix_append _ _
  · intro h
    rw [hfe, finalizeCommandLine_data, if_pos (apt_prefixOf_truncate _ h)]

/-- C10 witness: a 101-character command line starting with `"apt "` is
truncated to 100 characters ending in the ellipsis, then stripped. -/
theorem claim_c10_truncation_and_strip_witness :
    (MAX_COMMAND_LINE_LEN <
        (String.mk ("apt ".data ++ List.replicate 97 'x')).data.length ∧
      "apt ".data <+: (String.mk ("apt ".data ++ List.replicate 97 'x')).data) ∧
    ((finalize_entry { HistoryEntry.new with
          command_line := String.mk ("apt ".data ++ List.replicate 97 'x') } 1
        []).command_line.data.length ≤ MAX_COMMAND_LINE_LEN ∧
      COMMAND_LINE_ELLIPSIS.data <:+ (finalize_entry { HistoryEntry.new with
          command_line := String.mk ("apt ".data ++ List.replicate 97 'x') } 1
        []).command_line.data ∧
      (finalize_entry { HistoryEntry.new with
          command_line := String.mk ("apt ".data ++ List.replicate 97 'x') } 1
        []).command_line.data =
        (truncateCommandLine (String.mk ("apt ".data ++ List.replicate 97 'x'))).data.drop 4) := by
  have h1 : MAX_COMMAND_LINE_LEN <
      (String.mk ("apt ".data ++ List.replicate 97 'x')).data.length := by decide
  have h2 : "apt ".data <+: (String.mk ("apt ".data ++ List.replicate 97 'x')).data := by
    exact List.prefix_append _ _
  have hc := claim_c10_truncation_and_strip
    { HistoryEntry.new with command_line := String.mk ("apt ".data ++ List.replicate 97 'x') } 1 []
  exact ⟨⟨h1, h2⟩, (hc.1 h1).1, (hc.1 h1).2, hc.2 h2⟩

/-! ### C8 -/

/-- C8 (amended): `altered` always equals the sum of the sizes of all
architecture-keyed package sets; it equals the number of *distinct*
`(package, architecture)` pairs across all actions only when no pair is
repeated between actions (or architectures). -/
theorem claim_c8_altered_count (entry : HistoryEntry) (index : Nat)
    (pm : PackageMap) :
    (finalize_entry entry index pm).altered = sumSizes pm ∧
    ((pairsNoAction pm).Nodup →
      (finalize_entry entry index pm).altered =
        (pairsNoAction (finalize_entry entry index pm).affected).dedup.length) := by
  refine ⟨rfl, fun h => ?_⟩
  have haff : (finalize_entry entry index pm).affected = pm := rfl
  rw [haff, List.dedup_eq_self.mpr h, pairsNoAction_length]
  rfl

/-- C8 witness: a two-action transaction over disjoint packages, where the
altered count (2) does equal the number of distinct pairs. -/
theorem claim_c8_altered_count_witness :
    (finalize_entry HistoryEntry.new 1
        [("Install", [("amd64", ["a"])]), ("Remove", [("amd64", ["b"])])]).altered =
      sumSizes [("Install", [("amd64", ["a"])]), ("Remove", [("amd64", ["b"])])] ∧
    (pairsNoAction [("Install", [("amd64", ["a"])]), ("Remove", [("amd64", ["b"])])]).Nodup ∧
    (finalize_entry HistoryEntry.new 1
        [("Install", [("amd64", ["a"])]), ("Remove", [("amd64", ["b"])])]).altered =
      (pairsNoAction (finalize_entry HistoryEntry.new 1
        [("Install", [("amd64", ["a"])]), ("Remove", [("amd64", ["b"])])]).affected).dedup.length := by
  have hnd : (pairsNoAction
      [("Install", [("amd64", ["a"])]), ("Remove", [("amd64", ["b"])])]).Nodup := by decide
  have hc := claim_c8_altered_count HistoryEntry.new 1
    [("Install", [("amd64", ["a"])]), ("Remove", [("amd64", ["b"])])]
  exact ⟨hc.1, hnd, hc.2 hnd⟩

/-- C8 counterexample: parsing a record whose `Install` and `Remove` lines
both name `a:amd64` yields `altered = 2`, while the number of distinct
`(package, architecture)` pairs across all actions is 1 — so `altered` is
*not* the count of distinct pairs across actions, refuting the claim as
stated. -/
theorem claim_c8_counterexample :
    Except.map (fun l => l.map (fun e => (e.altered, (pairsNoAction e.affected).dedup.length)))
      (entries_from_file ["Commandline: x", "Install: a:amd64", "Remove: a:amd64"] 1) =
      .ok [(2, 1)] ∧ (2 : Nat) ≠ 1 := by
  exact ⟨rfl, by decide⟩

/-! ### C9 -/

lemma lexLt_nil_r (l : List Char) : lexLt l [] = false := by
  cases l <;> rfl

lemma lexLt_irrefl (l : List Char) : lexLt l l = false := by
  induction l with
  | nil => rfl
  | cons a as ih => simp [lexLt, ih]

lemma lexLt_trans (a b c : List Char) (h1 : lexLt a b = true)
    (h2 : lexLt b c = true) : lexLt a c = true := by
  induction a generalizing b c with
  | nil =>
    cases c with
    | nil => rw [lexLt_nil_r] at h2; exact Bool.noConfusion h2
    | cons z cs => rfl
  | cons x as ih =>
    cases b with
    | nil => rw [lexLt_nil_r] at h1; exact Bool.noConfusion h1
    | cons y bs =>
      cases c with
      | nil => rw [lexLt_nil_r] at h2; exact Bool.noConfusion h2
      | cons z cs =>
        by_cases hxz : x.toNat < z.toNat
        · simp [lexLt, hxz]
        · by_cases hxy : x.toNat < y.toNat
          · by_cases hyz : y.toNat < z.toNat
            · exact absurd (show x.toNat < z.toNat by omega) hxz
            · by_cases hzy : z.toNat < y.toNat
              · simp [lexLt, hyz, hzy] at h2
              · exact absurd (show x.toNat < z.toNat by omega) hxz
          · by_cases hyx : y.toNat < x.toNat
            · simp [lexLt, hxy, hyx] at h1
            · simp only [lexLt, if_neg hxy, if_neg hyx] at h1
              by_cases hyz : y.toNat < z.toNat
              · exact absurd (show x.toNat < z.toNat by omega) hxz
              · by_cases hzy : z.toNat < y.toNat
                · simp [lexLt, hyz, hzy] at h2
                · simp only [lexLt, if_neg hyz, if_neg hzy] at h2
                  have hzx : ¬ z.toNat < x.toNat := by omega
                  simp only [lexLt, if_neg hxz, if_neg hzx]
                  exact ih bs cs h1 h2

lemma lexLt_comparison (a b c : List Char) (h : lexLt c a = true) :
    lexLt b a = true ∨ lexLt c b = true := by
  induction a generalizing b c with
  | nil => rw [lexLt_nil_r] at h; exact Bool.noConfusion h
  | cons x as ih =>
    cases c with
    | nil =>
      cases b with
      | nil => exact Or.inl rfl
      | cons y bs => exact Or.inr rfl
    | cons z cs =>
      cases b with
      | nil => exact Or.inl rfl
      | cons y bs =>
        by_cases hyx : y.toNat < x.toNat
        · exact Or.inl (by simp [lexLt, hyx])
        · by_cases hzy : z.toNat < y.toNat
          · exact Or.inr (by simp [lexLt, hzy])
          · by_cases hzx : z.toNat < x.toNat
            · exact absurd hzx (by omega)
            · by_cases hxz : x.toNat < z.toNat
              · simp only [lexLt, if_neg hzx, if_pos hxz] at h
                exact Bool.noConfusion h
              · simp only [lexLt, if_neg hzx, if_neg hxz] at h
                have hxy : ¬ x.toNat < y.toNat := by omega
                have hyz : ¬ y.toNat < z.toNat := by omega
                rcases ih bs cs h with h1 | h1
                · exact Or.inl (by simp only [lexLt, if_neg hyx, if_neg hxy]; exact h1)
                · exact Or.inr (by simp only [lexLt, if_neg hzy, if_neg hyz]; exact h1)

lemma strLe_total (a b : String) : strLe a b = true ∨ strLe b a = true := by
  unfold strLe
  by_cases h1 : lexLt b.data a.data = true
  · right
    by_cases h2 : lexLt a.data b.data = true
    · have := lexLt_trans _ _ _ h1 h2
      rw [lexLt_irrefl] at this
      exact absurd this (by simp)
    · simp_all
  · left
    simp_all

lemma strLe_trans (a b c : String) (h1 : strLe a b = true)
    (h2 : strLe b c = true) : strLe a c = true := by
  unfold strLe at h1 h2 ⊢
  simp only [Bool.not_eq_true'] at h1 h2 ⊢
  by_contra h
  have h3 : lexLt c.data a.data = true := by simp_all
  rcases lexLt_comparison a.data b.data c.data h3 with hba | hcb
  · rw [h1] at hba; exact Bool.noConfusion hba
  · rw [h2] at hcb; exact Bool.noConfusion hcb

lemma strLe_of_not (a b : String) (h : ¬ strLe b a = true) : strLe a b = true := by
  rcases strLe_total a b with h1 | h1
  · exact h1
  · exact absurd h1 h

lemma insertLe_perm (a : String) (l : List String) : (insertLe a l).Perm (a :: l) := by
  induction l with
  | nil => exact List.Perm.refl _
  | cons b bs ih =>
    unfold insertLe
    by_cases h : strLe b a = true
    · rw [if_pos h]
      exact (ih.cons b).trans (List.Perm.swap a b bs)
    · rw [if_neg h]

lemma insertLe_sorted (a : String) (l : List String)
    (h : l.Sorted (fun x y => strLe x y = true)) :
    (insertLe a l).Sorted (fun x y => strLe x y = true) := by
  induction l with
  | nil => simp [insertLe]
  | cons b bs ih =>
    rw [List.sorted_cons] at h
    unfold insertLe
    by_cases hba : strLe b a = true
    · rw [if_pos hba]
      rw [List.sorted_cons]
      refine ⟨fun c hc => ?_, ih h.2⟩
      rcases List.mem_cons.mp ((insertLe_perm a bs).mem_iff.mp hc) with rfl | hcb
      · exact hba
      · exact h.1 c hcb
    · rw [if_neg hba]
      have hab : strLe a b = true := strLe_of_not a b hba
      rw [List.sorted_cons]
      exact ⟨fun c hc => by
        rcases List.mem_cons.mp hc with rfl | hcb
        · exact hab
        · exact strLe_trans _ _ _ hab (h.1 c hcb), List.sorted_cons.mpr h⟩

lemma sortStrings_aux (l acc : List String)
    (h : acc.Sorted (fun x y => strLe x y = true)) :
    (l.foldl (fun acc a => insertLe a acc) acc).Sorted (fun x y => strLe x y = true) ∧
    (l.foldl (fun acc a => insertLe a acc) acc).Perm (acc ++ l) := by
  induction l generalizing acc with
  | nil => simpa using h
  | cons a as ih =>
    simp only [List.foldl_cons]
    obtain ⟨hs, hp⟩ := ih (insertLe a acc) (insertLe_sorted a acc h)
    refine ⟨hs, hp.trans ?_⟩
    have h1 : (insertLe a acc ++ as).Perm ((a :: acc) ++ as) :=
      (insertLe_perm a acc).append_right as
    exact h1.trans List.perm_middle.symm

lemma sortStrings_sorted (l : List String) :
    (sortStrings l).Sorted (fun x y => strLe x y = true) :=
  (sortStrings_aux l [] (by simp)).1

lemma sortStrings_perm (l : List String) : (sortStrings l).Perm l := by
  simpa using (sortStrings_aux l [] (by simp)).2

/-- C9 (amended): a single-action transaction shows the full action word; a
multi-action transaction shows the sorted, comma-joined *list* of the
actions' first letters — one letter per action, so a letter repeats when two
distinct actions share an initial.  (`strLe` is the byte-lexicographic
string order Rust's `Vec::sort` uses.) -/
theorem claim_c9_action_summary (entry : HistoryEntry) :
    (∀ a am, entry.affected = [(a, am)] → actionSummary entry = a) ∧
    (2 ≤ entry.affected.length →
      ∃ l, l.Perm ((entry.affected.map Prod.fst).map firstInitial) ∧
        l.Sorted (fun x y => strLe x y = true) ∧
        actionSummary entry = joinSep ", " l) := by
  constructor
  · intro a am h
    unfold actionSummary
    rw [h]
    rfl
  · intro h
    refine ⟨sortStrings ((entry.affected.map Prod.fst).map firstInitial),
      sortStrings_perm _, sortStrings_sorted _, ?_⟩
    obtain ⟨aff, alt, cl, ed, id0, sd⟩ := entry
    match aff, h with
    | x :: y :: rest, _ => rfl

/-- C9 witness: an `Install`+`Remove` transaction summarises as `"I, R"`. -/
theorem claim_c9_action_summary_witness :
    actionSummary { HistoryEntry.new with
        affected := [("Install", [("amd64", ["a"])]), ("Remove", [("amd64", ["b"])])] } =
      "I, R" ∧
    (2 : Nat) ≤ ({ HistoryEntry.new with
        affected := [("Install", [("amd64", ["a"])]), ("Remove", [("amd64", ["b"])])] } :
        HistoryEntry).affected.length ∧
    ∃ l, l.Perm ((([("Install", [("amd64", ["a"])]), ("Remove", [("amd64", ["b"])])] :
          PackageMap).map Prod.fst).map firstInitial) ∧
      l.Sorted (fun x y => strLe x y = true) ∧
      actionSummary { HistoryEntry.new with
          affected := [("Install", [("amd64", ["a"])]), ("Remove", [("amd64", ["b"])])] } =
        joinSep ", " l := by
  refine ⟨rfl, by decide, ?_⟩
  exact (claim_c9_action_summary { HistoryEntry.new with
    affected := [("Install", [("amd64", ["a"])]), ("Remove", [("amd64", ["b"])])] }).2
    (by decide)

/-- C9 counterexample: a `Reinstall`+`Remove` transaction summarises as
`"R, R"` — the initial `R` appears twice, while the claim's "set of first
letters" (each letter at most once) would render as `"R"`. -/
theorem claim_c9_counterexample :
    actionSummary { HistoryEntry.new with
        affected := [("Reinstall", [("amd64", ["a"])]), ("Remove", [("amd64", ["b"])])] } =
      "R, R" ∧
    ((([("Reinstall", [("amd64", ["a"])]), ("Remove", [("amd64", ["b"])])] :
        PackageMap).map Prod.fst).map firstInitial).dedup = ["R"] ∧
    joinSep ", " ["R"] = "R" ∧
    ("R, R" : String) ≠ "R" := by
  exact ⟨rfl, by decide, rfl, by decide⟩

/-! ### C1 -/

/-- C1 (amended): a repeated action line within one record *replaces* the
previously parsed package map for that action key (`HashMap::insert`
semantics): after processing a second `Install` line, the `Install` entry of
the package map is exactly the second line's parse, regardless of what was
there before. -/
theorem claim_c1_repeated_action_overwrites :
    (∀ st st2 : ParseState, processLine st "Install: b:amd64" = .ok st2 →
      alistLookup st2.package_map "Install" = some [("amd64", ["b"])]) ∧
    (entries_from_file ["Commandline: c", "Install: a:amd64", "Install: b:amd64"] 1 =
      .ok [{ affected := [("Install", [("amd64", ["b"])])], altered := 1,
             command_line := "c", end_date := "", id := 1, start_date := "" }]) := by
  constructor
  · intro st st2 h
    have he : processLine st "Install: b:amd64" =
        .ok { st with
          package_map := alistInsert st.package_map "Install" [("amd64", ["b"])] } := rfl
    rw [he] at h
    cases h
    exact alistLookup_insert _ _ _
  · rfl

/-- C1 witness: the overwrite lemma applied to a state whose package map
already binds `Install` to `{amd64: {a}}`. -/
theorem claim_c1_repeated_action_overwrites_witness :
    processLine ⟨[], HistoryEntry.new, 1, true, [("Install", [("amd64", ["a"])])]⟩
        "Install: b:amd64" =
      .ok ⟨[], HistoryEntry.new, 1, true, [("Install", [("amd64", ["b"])])]⟩ ∧
    alistLookup ([("Install", [("amd64", ["b"])])] : PackageMap) "Install" =
      some [("amd64", ["b"])] := by
  refine ⟨rfl, ?_⟩
  exact claim_c1_repeated_action_overwrites.1
    ⟨[], HistoryEntry.new, 1, true, [("Install", [("amd64", ["a"])])]⟩
    ⟨[], HistoryEntry.new, 1, true, [("Install", [("amd64", ["b"])])]⟩ rfl

/-- C1 counterexample: in a record with `Install: a:amd64` followed by
`Install: b:amd64`, the resulting `Install` index holds only `{amd64: {b}}`
(the second line's parse) and not the union `{amd64: {a, b}}` — the first
line's packages are lost, refuting the claim as stated. -/
theorem claim_c1_counterexample :
    Except.map (fun l => l.map (fun e => alistLookup e.affected "Install"))
      (entries_from_file ["Commandline: c", "Install: a:amd64", "Install: b:amd64"] 1) =
      .ok [some [("amd64", ["b"])]] ∧
    some [("amd64", ["b"])] ≠ some [("amd64", ["a", "b"])] := by
  exact ⟨rfl, by decide⟩

/-! ### C3 -/

/-- A sample legacy-store entry. -/
def mainSampleEntry : MainHistoryEntry :=
  { action := "Install", altered := 1, affected := "a:amd64 (1.0)",
    command_line := "c", end_date := "", start_date := "", id := 1 }

/-- C3 (amended): in the legacy single-ID `info` of `src/main.rs`, selecting
an absolute ID larger than the transaction count panics
(`Option::unwrap` on `None`, modelled by `Except.error`), crashing the
process; no empty result and no "no such entry" signal are produced. -/
theorem claim_c3_out_of_range_panics (entries : List MainHistoryEntry)
    (id : Nat) (h : entries.length < id) :
    main_info entries (some id) =
      .error "called Option::unwrap() on a None value" := by
  have h0 : ¬ id = 0 := by omega
  have hg : entries.get? (id - 1) = none := by
    rw [List.get?_eq_none]
    omega
  simp only [main_info]
  rw [if_neg h0, hg]

/-- C3 witness: a one-transaction store queried with ID 2. -/
theorem claim_c3_out_of_range_panics_witness :
    ([mainSampleEntry] : List MainHistoryEntry).length < 2 ∧
    main_info [mainSampleEntry] (some 2) =
      .error "called Option::unwrap() on a None value" :=
  ⟨by decide, claim_c3_out_of_range_panics [mainSampleEntry] 2 (by decide)⟩

/-- C3 counterexample: with a single-transaction store, `info` on ID 2
evaluates to an `Except.error` — the model of a panic — so the process
crashes; it does not yield an empty result with a "no such entry" signal,
refuting the claim as stated. -/
theorem claim_c3_counterexample :
    main_info [mainSampleEntry] (some 2) =
      .error "called Option::unwrap() on a None value" ∧
    ∀ s, main_info [mainSampleEntry] (some 2) ≠ .ok s := by
  refine ⟨rfl, fun s h => ?_⟩
  rw [show main_info [mainSampleEntry] (some 2) =
    .error "called Option::unwrap() on a None value" from rfl] at h
  exact Except.noConfusion h

/-! ### C7 -/

lemma scanChars_append (l1 l2 : List Char) (p : ArchMap) (k : String) (b : Bool) :
    scanChars (l1 ++ l2) p k b =
      match scanChars l1 p k b with
      | .error e => .error e
      | .ok (p2, k2, b2) => scanChars l2 p2 k2 b2 := by
  induction l1 generalizing p k b with
  | nil => rfl
  | cons c cs ih =>
    by_cases h1 : c = ' '
    · simp only [List.cons_append, scanChars, if_pos h1]
      exact ih p k b
    · by_cases h2 : c = '('
      · simp only [List.cons_append, scanChars, if_neg h1, if_pos h2]
        exact ih p k true
      · by_cases h3 : c = ')'
        · simp only [List.cons_append, scanChars, if_neg h1, if_neg h2, if_pos h3]
          exact ih p k false
        · by_cases h4 : c = ','
          · by_cases h5 : b = true
            · simp only [List.cons_append, scanChars, if_neg h1, if_neg h2, if_neg h3,
                if_pos h4, if_pos h5]
              exact ih p k b
            · cases hadd : add_parsed_package p k with
              | error e =>
                simp only [List.cons_append, scanChars, if_neg h1, if_neg h2, if_neg h3,
                  if_pos h4, if_neg h5, hadd]
              | ok p2 =>
                simp only [List.cons_append, scanChars, if_neg h1, if_neg h2, if_neg h3,
                  if_pos h4, if_neg h5, hadd]
                exact ih p2 "" b
          · by_cases h5 : b = true
            · simp only [List.cons_append, scanChars, if_neg h1, if_neg h2, if_neg h3,
                if_neg h4, if_pos h5]
              exact ih p k b
            · simp only [List.cons_append, scanChars, if_neg h1, if_neg h2, if_neg h3,
                if_neg h4, if_neg h5]
              exact ih p (k.push c) b

lemma scanChars_skip_parens (inner : List Char)
    (hinner : ∀ c ∈ inner, c ≠ '(' ∧ c ≠ ')') (rest : List Char) (p : ArchMap)
    (k : String) :
    scanChars (inner ++ rest) p k true = scanChars rest p k true := by
  induction inner with
  | nil => rfl
  | cons c cs ih =>
    obtain ⟨hco, hcc⟩ := hinner c (by simp)
    have ih2 := ih (fun x hx => hinner x (by simp [hx]))
    by_cases h1 : c = ' '
    · simp only [List.cons_append, scanChars, if_pos h1]
      exact ih2
    · by_cases h4 : c = ','
      · simp only [List.cons_append, scanChars, if_neg h1, if_neg hco, if_neg hcc,
          if_pos h4, if_pos rfl]
        exact ih2
      · simp only [List.cons_append, scanChars, if_neg h1, if_neg hco, if_neg hcc,
          if_neg h4, if_pos rfl]
        exact ih2

/-- C7: a comma inside a version parenthesis does not split the token and
parenthesised content never reaches the output — deleting a balanced
parenthesised group from an action line does not change the parse; and the
concrete line `pkgA:amd64, pkgB:amd64 (1.0, 2.0)` under `Install` parses to
`{Install: {amd64: {pkgA, pkgB}}}` with altered count 2, the final token
being flushed without a trailing comma. -/
theorem claim_c7_package_line_scan :
    (∀ (s1 inner s2 : List Char),
        (∀ c ∈ inner, c ≠ '(' ∧ c ≠ ')') →
        (∀ p k b, scanChars s1 [] "" false = .ok (p, k, b) → b = false) →
        packages_from_action_line (String.mk (s1 ++ '(' :: (inner ++ ')' :: s2))) =
          packages_from_action_line (String.mk (s1 ++ s2))) ∧
    (entries_from_file ["Commandline: apt install pkgA pkgB",
        "Install: pkgA:amd64, pkgB:amd64 (1.0, 2.0)"] 1 =
      .ok [{ affected := [("Install", [("amd64", ["pkgA", "pkgB"])])], altered := 2,
             command_line := "install pkgA pkgB", end_date := "", id := 1,
             start_date := "" }]) := by
  constructor
  · intro s1 inner s2 hinner hs1
    unfold packages_from_action_line
    rw [show (String.mk (s1 ++ '(' :: (inner ++ ')' :: s2))).data =
      s1 ++ '(' :: (inner ++ ')' :: s2) from rfl]
    rw [show (String.mk (s1 ++ s2)).data = s1 ++ s2 from rfl]
    rw [scanChars_append, scanChars_append]
    cases hres : scanChars s1 [] "" false with
    | error e => rfl
    | ok r =>
      obtain ⟨p, k, b⟩ := r
      have hb := hs1 p k b hres
      subst hb
      change (match scanChars ('(' :: (inner ++ ')' :: s2)) p k false with
          | Except.error e => Except.error e
          | Except.ok (packages, package, _) => add_parsed_package packages package) =
        (match scanChars s2 p k false with
          | Except.error e => Except.error e
          | Except.ok (packages, package, _) => add_parsed_package packages package)
      have step1 : scanChars ('(' :: (inner ++ ')' :: s2)) p k false =
          scanChars (inner ++ ')' :: s2) p k true := rfl
      rw [step1, scanChars_skip_parens inner hinner]
      rfl
  · rfl

/-- C7 witness: deleting the group `(1.0, 2.0)` from `x:a (1.0, 2.0)` leaves
the parse of `x:a ` unchanged. -/
theorem claim_c7_package_line_scan_witness :
    (∀ c ∈ "1.0, 2.0".data, c ≠ '(' ∧ c ≠ ')') ∧
    packages_from_action_line
        (String.mk ("x:a ".data ++ '(' :: ("1.0, 2.0".data ++ ')' :: []))) =
      packages_from_action_line (String.mk ("x:a ".data ++ [])) := by
  refine ⟨by decide, ?_⟩
  exact claim_c7_package_line_scan.1 "x:a ".data "1.0, 2.0".data [] (by decide)
    (fun p k b hb => by
      rw [show scanChars "x:a ".data [] "" false = .ok ([], "x:a", false) from rfl] at hb
      cases hb
      rfl)

/-! ### C4 -/

lemma parseI32core_bound (sign : Int) (digits : List Char) (v : Int)
    (h : parseI32core sign digits = some v) : -(2 ^ 31) ≤ v ∧ v < 2 ^ 31 := by
  unfold parseI32core at h
  cases digits with
  | nil => exact Option.noConfusion h
  | cons d ds =>
    dsimp only at h
    split_ifs at h with h1 h2
    cases h
    exact h2

lemma parseI32_bound (s : String) (v : Int) (h : parseI32 s = some v) :
    -(2 ^ 31) ≤ v ∧ v < 2 ^ 31 := by
  unfold parseI32 at h
  split at h <;> exact parseI32core_bound _ _ _ h

lemma matchesEntry_no_packages (e : HistoryEntry) (ids : List Nat) :
    matchesEntry e ids [] = decide (e.id ∈ ids) := by
  unfold matchesEntry
  have hfalse : e.affected.any
      (fun p => p.2.any (fun q => q.2.any (List.contains [] ·))) = false := by
    simp
  rw [hfalse, Bool.or_false]

/-- C4: a selector parsing as an integer `v ≤ 0` resolves to `N + v`
(when that is non-negative; `0` is the newest, `-2` the third-newest), a
positive `v` is the absolute ID `v`; a negative resolution wraps through the
`u32` cast to a value above `N`, and any resolved ID outside `1..N` matches
no transaction of a store whose IDs lie in `1..N`.  No bounds check happens
during resolution. -/
theorem claim_c4_selector_resolution (entries : List HistoryEntry) (s : String)
    (v : Int) (hN : entries.length < 2 ^ 31)
    (hids : ∀ e ∈ entries, 1 ≤ e.id ∧ e.id ≤ entries.length)
    (hv : parseI32 s = some v) :
    (v ≤ 0 → 0 ≤ (entries.length : Int) + v →
      resolveTid entries.length v = ((entries.length : Int) + v).toNat) ∧
    (0 < v → resolveTid entries.length v = v.toNat) ∧
    ((entries.length : Int) + v < 0 →
      entries.length < resolveTid entries.length v) ∧
    (resolveTid entries.length v = 0 ∨ entries.length < resolveTid entries.length v →
      entries.filter (fun e => matchesEntry e [resolveTid entries.length v] []) = []) := by
  obtain ⟨hlo, hhi⟩ := parseI32_bound s v hv
  refine ⟨?_, ?_, ?_, ?_⟩
  · intro h1 h2
    simp only [resolveTid, toI32]
    rw [if_pos h1]
    omega
  · intro h1
    simp only [resolveTid, toI32]
    rw [if_neg (by omega : ¬ v ≤ 0)]
    omega
  · intro h1
    simp only [resolveTid, toI32]
    rw [if_pos (by omega : v ≤ 0)]
    omega
  · intro hr
    rw [List.filter_eq_nil_iff]
    intro e he
    have hid := hids e he
    rw [matchesEntry_no_packages]
    simp only [List.mem_singleton, decide_eq_true_eq]
    omega

/-- A five-transaction store with IDs 1..5 (the spec's running example). -/
def entriesFive : List HistoryEntry :=
  [{ HistoryEntry.new with id := 1 }, { HistoryEntry.new with id := 2 },
   { HistoryEntry.new with id := 3 }, { HistoryEntry.new with id := 4 },
   { HistoryEntry.new with id := 5 }]

/-- C4 witness: with N = 5, selector `-2` resolves to 3, and the absolute
selector `7` matches no transaction. -/
theorem claim_c4_selector_resolution_witness :
    parseI32 "-2" = some (-2) ∧
    resolveTid entriesFive.length (-2) = 3 ∧
    parseI32 "7" = some 7 ∧
    resolveTid entriesFive.length 7 = 7 ∧
    entriesFive.filter
      (fun e => matchesEntry e [resolveTid entriesFive.length 7] []) = [] := by
  refine ⟨by decide, ?_, by decide, by decide, ?_⟩
  · have h := (claim_c4_selector_resolution entriesFive "-2" (-2) (by decide)
      (by decide) (by decide)).1 (by decide) (by decide)
    rw [h]
    decide
  · exact (claim_c4_selector_resolution entriesFive "7" 7 (by decide)
      (by decide) (by decide)).2.2.2 (Or.inr (by decide))

/-! ### C6 -/

/-- A file name the discovery regex can hand to the comparator without a
panic: the unsuffixed current file, or a name whose third dot-field parses
as a number. -/
def validLogName (x : String) : Prop :=
  x = CURRENT_HISTORY_FILE ∨ (log_file_num x).isSome

instance decValidLogName (x : String) : Decidable (validLogName x) :=
  inferInstanceAs (Decidable (x = CURRENT_HISTORY_FILE ∨ (log_file_num x).isSome = true))

/-- The ordering the claim asserts of the sorted output: everything may
precede the current file, and among suffixed files the numeric suffix is
non-increasing. -/
def fileOrderRel (a b : String) : Prop :=
  b = CURRENT_HISTORY_FILE ∨
    (a ≠ CURRENT_HISTORY_FILE ∧ b ≠ CURRENT_HISTORY_FILE ∧
      ∃ x y, log_file_num a = some x ∧ log_file_num b = some y ∧ y ≤ x)

lemma sortCmp_some (a b : String) (ha : validLogName a) (hb : validLogName b) :
    ∃ o, sortCmp a b = some o := by
  unfold sortCmp
  by_cases h1 : a = CURRENT_HISTORY_FILE
  · exact ⟨.gt, by rw [if_pos h1]⟩
  · by_cases h2 : b = CURRENT_HISTORY_FILE
    · exact ⟨.lt, by rw [if_neg h1, if_pos h2]⟩
    · rcases ha with ha | ha
      · exact absurd ha h1
      rcases hb with hb | hb
      · exact absurd hb h2
      obtain ⟨x, hx⟩ := Option.isSome_iff_exists.mp ha
      obtain ⟨y, hy⟩ := Option.isSome_iff_exists.mp hb
      exact ⟨(compare x y).swap, by rw [if_neg h1, if_neg h2, hx, hy]⟩

lemma rel_of_cmp_lt (a b : String) (ha : validLogName a) (hb : validLogName b)
    (h : sortCmp a b = some .lt) : fileOrderRel a b := by
  unfold sortCmp at h
  by_cases h1 : a = CURRENT_HISTORY_FILE
  · rw [if_pos h1] at h
    simp at h
  · rw [if_neg h1] at h
    by_cases h2 : b = CURRENT_HISTORY_FILE
    · exact Or.inl h2
    · rw [if_neg h2] at h
      rcases ha with ha | ha
      · exact absurd ha h1
      rcases hb with hb | hb
      · exact absurd hb h2
      obtain ⟨x, hx⟩ := Option.isSome_iff_exists.mp ha
      obtain ⟨y, hy⟩ := Option.isSome_iff_exists.mp hb
      rw [hx, hy] at h
      have hsw := Option.some.inj h
      right
      refine ⟨h1, h2, x, y, hx, hy, ?_⟩
      rcases hcmp : compare x y with _ | _ | _ <;> rw [hcmp] at hsw
      · exact Ordering.noConfusion hsw
      · exact Ordering.noConfusion hsw
      · have := Nat.compare_eq_gt.mp hcmp
        omega

lemma rel_of_cmp_pass (a b : String) (ha : validLogName a) (hb : validLogName b)
    (h : sortCmp a b = some .gt ∨ sortCmp a b = some .eq) :
    fileOrderRel b a := by
  unfold sortCmp at h
  by_cases h1 : a = CURRENT_HISTORY_FILE
  · exact Or.inl h1
  · by_cases h2 : b = CURRENT_HISTORY_FILE
    · rcases h with h | h <;> (rw [if_neg h1, if_pos h2] at h; simp at h)
    · rcases ha with ha | ha
      · exact absurd ha h1
      rcases hb with hb | hb
      · exact absurd hb h2
      obtain ⟨x, hx⟩ := Option.isSome_iff_exists.mp ha
      obtain ⟨y, hy⟩ := Option.isSome_iff_exists.mp hb
      right
      refine ⟨h2, h1, y, x, hy, hx, ?_⟩
      rcases h with h | h <;> rw [if_neg h1, if_neg h2, hx, hy] at h <;>
        have hsw := Option.some.inj h
      · rcases hcmp : compare x y with _ | _ | _ <;> rw [hcmp] at hsw
        · have := Nat.compare_eq_lt.mp hcmp
          omega
        · exact Ordering.noConfusion hsw
        · exact Ordering.noConfusion hsw
      · rcases hcmp : compare x y with _ | _ | _ <;> rw [hcmp] at hsw
        · exact Ordering.noConfusion hsw
        · have := Nat.compare_eq_eq.mp hcmp
          omega
        · exact Ordering.noConfusion hsw

lemma fileOrderRel_trans (a b c : String)
    (hside : ¬ (b = CURRENT_HISTORY_FILE ∧ c = CURRENT_HISTORY_FILE))
    (h1 : fileOrderRel a b) (h2 : fileOrderRel b c) : fileOrderRel a c := by
  rcases h1 with h1 | ⟨ha2, hb2, x, y, hx, hy, hxy⟩
  · rcases h2 with h2 | ⟨hb3, _, _⟩
    · exact absurd ⟨h1, h2⟩ hside
    · exact absurd h1 hb3
  · rcases h2 with h2 | ⟨_, hc2, y2, z, hy2, hz, hyz⟩
    · exact Or.inl h2
    · right
      refine ⟨ha2, hc2, x, z, hx, hz, ?_⟩
      rw [hy] at hy2
      have := Option.some.inj hy2
      omega

lemma insertSorted_ok (a : String) (acc : List String)
    (ha : validLogName a) (hacc : ∀ x ∈ acc, validLogName x)
    (hsor : acc.Pairwise fileOrderRel) (hnd : (a :: acc).Nodup) :
    ∃ out, insertSorted a acc = some out ∧ out.Perm (a :: acc) ∧
      out.Pairwise fileOrderRel := by
  induction acc with
  | nil => exact ⟨[a], rfl, List.Perm.refl _, by simp⟩
  | cons b bs ih =>
    have hvb : validLogName b := hacc b (by simp)
    have hvbs : ∀ x ∈ bs, validLogName x := fun x hx => hacc x (by simp [hx])
    obtain ⟨o, ho⟩ := sortCmp_some a b ha hvb
    rw [List.pairwise_cons] at hsor
    have hside : ∀ c ∈ bs, ¬ (b = CURRENT_HISTORY_FILE ∧ c = CURRENT_HISTORY_FILE) := by
      intro c hc hand
      obtain ⟨hb1, hc1⟩ := hand
      have hbnd : b ∉ bs := (List.nodup_cons.mp (List.nodup_cons.mp hnd).2).1
      have hbc : b = c := by rw [hb1, hc1]
      exact hbnd (hbc ▸ hc)
    cases o with
    | lt =>
      refine ⟨a :: b :: bs, ?_, List.Perm.refl _, ?_⟩
      · unfold insertSorted
        rw [ho]
      · rw [List.pairwise_cons]
        refine ⟨?_, List.pairwise_cons.mpr hsor⟩
        intro c hc
        rcases List.mem_cons.mp hc with rfl | hcb
        · exact rel_of_cmp_lt a c ha hvb ho
        · exact fileOrderRel_trans a b c (hside c hcb)
            (rel_of_cmp_lt a b ha hvb ho) (hsor.1 c hcb)
    | eq =>
      have hnd2 : (a :: bs).Nodup := by
        have := List.nodup_cons.mp hnd
        exact List.nodup_cons.mpr ⟨fun hx => this.1 (by simp [hx]),
          (List.nodup_cons.mp this.2).2⟩
      obtain ⟨out1, hout1, hperm1, hpair1⟩ := ih hvbs hsor.2 hnd2
      refine ⟨b :: out1, ?_, ?_, ?_⟩
      · unfold insertSorted
        rw [ho, hout1]
      · exact (hperm1.cons b).trans (List.Perm.swap a b bs)
      · rw [List.pairwise_cons]
        refine ⟨?_, hpair1⟩
        intro c hc
        rcases List.mem_cons.mp (hperm1.mem_iff.mp hc) with rfl | hcb
        · exact rel_of_cmp_pass c b (ha) hvb (Or.inr ho)
        · exact hsor.1 c hcb
    | gt =>
      have hnd2 : (a :: bs).Nodup := by
        have := List.nodup_cons.mp hnd
        exact List.nodup_cons.mpr ⟨fun hx => this.1 (by simp [hx]),
          (List.nodup_cons.mp this.2).2⟩
      obtain ⟨out1, hout1, hperm1, hpair1⟩ := ih hvbs hsor.2 hnd2
      refine ⟨b :: out1, ?_, ?_, ?_⟩
      · unfold insertSorted
        rw [ho, hout1]
      · exact (hperm1.cons b).trans (List.Perm.swap a b bs)
      · rw [List.pairwise_cons]
        refine ⟨?_, hpair1⟩
        intro c hc
        rcases List.mem_cons.mp (hperm1.mem_iff.mp hc) with rfl | hcb
        · exact rel_of_cmp_pass c b (ha) hvb (Or.inl ho)
        · exact hsor.1 c hcb

lemma sortLog_fold_ok (l : List String) :
    ∀ acc : List String, (∀ x ∈ l, validLogName x) → (∀ x ∈ acc, validLogName x) →
    acc.Pairwise fileOrderRel → (acc ++ l).Nodup →
    ∃ out, List.foldlM (fun acc a => insertSorted a acc) acc l = some out ∧
      out.Perm (acc ++ l) ∧ out.Pairwise fileOrderRel := by
  induction l with
  | nil =>
    intro acc _ hacc hsor _
    exact ⟨acc, rfl, by simp, hsor⟩
  | cons a as ih =>
    intro acc hl hacc hsor hnd
    have hva : validLogName a := hl a (by simp)
    have hnd1 : (a :: acc).Nodup := by
      have : ((a :: acc) ++ as).Nodup := (List.perm_middle.symm.nodup_iff).mpr hnd
      exact (List.nodup_append.mp this).1
    obtain ⟨out1, hout1, hperm1, hpair1⟩ := insertSorted_ok a acc hva hacc hsor hnd1
    have hvout1 : ∀ x ∈ out1, validLogName x := by
      intro x hx
      rcases List.mem_cons.mp (hperm1.mem_iff.mp hx) with rfl | hxa
      · exact hva
      · exact hacc x hxa
    have hndout : (out1 ++ as).Nodup := by
      have h1 : ((a :: acc) ++ as).Nodup := (List.perm_middle.symm.nodup_iff).mpr hnd
      exact ((hperm1.append_right as).nodup_iff).mpr h1
    obtain ⟨out, hout, hperm, hpair⟩ := ih out1
      (fun x hx => hl x (by simp [hx])) hvout1 hpair1 hndout
    refine ⟨out, ?_, ?_, hpair⟩
    · rw [List.foldlM_cons, hout1]
      exact hout
    · exact hperm.trans ((hperm1.append_right as).trans List.perm_middle.symm)

/-- C6: discovery ordering — for distinct, regex-valid log-file names, the
sort succeeds and produces a reordering in which the unsuffixed current file
comes last and the numerically suffixed files appear with non-increasing
(highest-to-lowest) suffix numbers. -/
theorem claim_c6_log_file_order (l : List String)
    (hval : ∀ x ∈ l, validLogName x) (hnd : l.Nodup) :
    ∃ out, sort_log_files l = some out ∧ out.Perm l ∧
      out.Pairwise fileOrderRel := by
  obtain ⟨out, h1, h2, h3⟩ := sortLog_fold_ok l [] hval (by simp) (by simp)
    (by simpa using hnd)
  exact ⟨out, h1, by simpa using h2, h3⟩

/-- C6 witness: four discovered names sort to `3.gz, 2.gz, 1.gz, current`. -/
theorem claim_c6_log_file_order_witness :
    sort_log_files ["history.log", "history.log.1.gz", "history.log.3.gz",
        "history.log.2.gz"] =
      some ["history.log.3.gz", "history.log.2.gz", "history.log.1.gz",
        "history.log"] ∧
    ∃ out, sort_log_files ["history.log", "history.log.1.gz", "history.log.3.gz",
        "history.log.2.gz"] = some out ∧
      out.Perm ["history.log", "history.log.1.gz", "history.log.3.gz",
        "history.log.2.gz"] ∧
      out.Pairwise fileOrderRel := by
  refine ⟨rfl, ?_⟩
  exact claim_c6_log_file_order _ (by decide) (by decide)

/-! ### C5 -/

lemma range'_add (m s n : Nat) :
    List.range' s m ++ List.range' (s + m) n = List.range' s (m + n) := by
  induction m generalizing s with
  | zero => simp
  | succ m ihm =>
    have h1 : s + (m + 1) = (s + 1) + m := by omega
    have h2 : m + 1 + n = (m + n) + 1 := by omega
    rw [h2]
    show s :: (List.range' (s + 1) m ++ List.range' (s + (m + 1)) n) =
      s :: List.range' (s + 1) (m + n)
    rw [h1, ihm (s + 1)]

lemma runLines_ids (lines : List String) : ∀ st st2 : ParseState,
    runLines st lines = .ok st2 →
    ∃ k, st2.entries.map (fun e => e.id) =
        st.entries.map (fun e => e.id) ++ List.range' st.index k ∧
      st2.index = st.index + k := by
  induction lines with
  | nil =>
    intro st st2 h
    cases h
    exact ⟨0, by simp, by simp⟩
  | cons l ls ih =>
    intro st st2 h
    unfold runLines at h
    cases hp : processLine st l with
    | error e => rw [hp] at h; exact Except.noConfusion h
    | ok st1 =>
      rw [hp] at h
      obtain ⟨k, hmap, hidx⟩ := ih st1 st2 h
      by_cases hl : l = ""
      · subst hl
        by_cases hseen : st.seen_entry = false
        · have hst1 : st1 = { st with seen_entry := true } := by
            unfold processLine at hp
            rw [if_pos rfl, if_pos hseen] at hp
            cases hp
            rfl
          subst hst1
          exact ⟨k, hmap, hidx⟩
        · have hst1 : st1 =
              ⟨st.entries ++ [finalize_entry st.entry st.index st.package_map],
                HistoryEntry.new, st.index + 1, st.seen_entry, []⟩ := by
            unfold processLine at hp
            rw [if_pos rfl, if_neg hseen] at hp
            cases hp
            rfl
          subst hst1
          have hmap2 : st2.entries.map (fun e => e.id) =
              (st.entries ++ [finalize_entry st.entry st.index st.package_map]).map
                (fun e => e.id) ++ List.range' (st.index + 1) k := hmap
          have hidx2 : st2.index = st.index + 1 + k := hidx
          refine ⟨k + 1, ?_, by omega⟩
          rw [hmap2, List.map_append]
          have hone : (List.map (fun e => e.id)
              [finalize_entry st.entry st.index st.package_map]) = [st.index] := rfl
          rw [hone, List.append_assoc]
          rfl
      · unfold processLine at hp
        rw [if_neg hl] at hp
        cases hsf : stepFields st.entry st.package_map l with
        | error e => rw [hsf] at hp; exact Except.noConfusion hp
        | ok pr =>
          obtain ⟨e1, p1⟩ := pr
          rw [hsf] at hp
          cases hp
          exact ⟨k, hmap, hidx⟩

lemma entries_from_file_ids (lines : List String) (s : Nat)
    (out : List HistoryEntry) (h : entries_from_file lines s = .ok out) :
    out.map (fun e => e.id) = List.range' s out.length := by
  unfold entries_from_file at h
  cases hr : runLines ⟨[], HistoryEntry.new, s, false, []⟩ lines with
  | error e => rw [hr] at h; exact Except.noConfusion h
  | ok st =>
    rw [hr] at h
    have h2 : (if st.entry.command_line ≠ "" then
        Except.ok (st.entries ++ [finalize_entry st.entry st.index st.package_map])
      else Except.ok (ε := String) st.entries) = Except.ok out := h
    obtain ⟨k, hmap, hidx⟩ := runLines_ids lines _ st hr
    simp only [List.map_nil, List.nil_append] at hmap
    have hidx2 : st.index = s + k := hidx
    have hlen : st.entries.length = k := by
      have := congrArg List.length hmap
      simpa using this
    split_ifs at h2 with hc
    · cases h2
      rw [List.map_append, hmap]
      have hone : (List.map (fun e => e.id)
          [finalize_entry st.entry st.index st.package_map]) = [st.index] := rfl
      rw [hone]
      have hl2 : (st.entries ++
          [finalize_entry st.entry st.index st.package_map]).length = k + 1 := by
        simp [hlen]
      rw [hl2]
      have hstep : [st.index] = List.range' (s + k) 1 := by
        rw [hidx2]
        rfl
      rw [hstep, range'_add]
    · cases h2
      rw [hmap, hlen]

lemma combineFilesAux_ids : ∀ (files : List (List String)) (i : Nat)
    (res : List HistoryEntry), combineFilesAux i files = .ok res →
    res.map (fun e => e.id) = List.range' i res.length := by
  intro files
  induction files with
  | nil =>
    intro i res h
    cases h
    simp
  | cons f fs ih =>
    intro i res h
    unfold combineFilesAux at h
    cases he : entries_from_file f i with
    | error e => rw [he] at h; exact Except.noConfusion h
    | ok l =>
      rw [he] at h
      have h2 : (if l.length = 0 then combineFilesAux i fs
          else
            match combineFilesAux (i + l.length) fs with
            | .error e => .error e
            | .ok rest => .ok (l ++ rest)) = .ok res := h
      by_cases hl : l.length = 0
      · rw [if_pos hl] at h2
        exact ih i res h2
      · rw [if_neg hl] at h2
        cases hrest : combineFilesAux (i + l.length) fs with
        | error e => rw [hrest] at h2; exact Except.noConfusion h2
        | ok rest =>
          rw [hrest] at h2
          cases h2
          rw [List.map_append, entries_from_file_ids f i l he, ih _ rest hrest,
            List.length_append, range'_add]

/-- C5: for every multi-file input whose parse succeeds, the combined store's
IDs are exactly the dense strictly-increasing sequence `1..N` in file order;
and a file yielding zero transactions is skipped without perturbing the ID
numbering of the files after it. -/
theorem claim_c5_dense_ids (files : List (List String))
    (res : List HistoryEntry) (h : history_entries files = .ok res) :
    res.map (fun e => e.id) = List.range' 1 res.length ∧
    (∀ (i : Nat) (f : List String) (fs : List (List String)),
      entries_from_file f i = .ok [] →
      combineFilesAux i (f :: fs) = combineFilesAux i fs) := by
  refine ⟨combineFilesAux_ids files 1 res h, ?_⟩
  intro i f fs hf
  have hstep : combineFilesAux i (f :: fs) =
      match entries_from_file f i with
      | .error e => .error e
      | .ok entries =>
        if entries.length = 0 then combineFilesAux i fs
        else
          match combineFilesAux (i + entries.length) fs with
          | .error e => .error e
          | .ok rest => .ok (entries ++ rest) := rfl
  rw [hstep, hf]
  rfl

/-- The two transactions the C5 witness input parses to. -/
def entriesAB : List HistoryEntry :=
  [{ affected := [], altered := 0, command_line := "a", end_date := "",
     id := 1, start_date := "" },
   { affected := [], altered := 0, command_line := "b", end_date := "",
     id := 2, start_date := "" }]

/-- C5 witness: a three-file input whose middle file is empty parses to two
transactions with IDs `[1, 2]`. -/
theorem claim_c5_dense_ids_witness :
    history_entries [["Commandline: a"], [], ["Commandline: b"]] =
      .ok entriesAB ∧
    entriesAB.map (fun e => e.id) = List.range' 1 entriesAB.length := by
  refine ⟨rfl, ?_⟩
  exact (claim_c5_dense_ids [["Commandline: a"], [], ["Commandline: b"]]
    entriesAB rfl).1

/-! ### C2 -/

/-- Overwrite the seen-a-blank-line flag. -/
def setSeen (b : Bool) (st : ParseState) : ParseState :=
  { st with seen_entry := b }

/-- The value a line contributes to a scalar field with descriptor `d`:
`some v` when the line parses as `d: ... v`, `none` otherwise. -/
def fieldContrib (d : String) (line : String) : Option String :=
  match parseFields line with
  | .error _ => none
  | .ok (d2, v) => if d2 = d then some v else none

/-- The last value a record's lines set the field `d` to, if any. -/
def lastFieldVal (d : String) (lines : List String) : Option String :=
  (lines.filterMap (fieldContrib d)).getLast?

/-- A log file as a sequence of records, each record's lines followed by its
terminating blank line. -/
def joinRecords (rs : List (List String)) : List String :=
  (rs.map (fun r => r ++ [""])).flatten

lemma joinRecords_cons (r : List String) (rs : List (List String)) :
    joinRecords (r :: rs) = (r ++ [""]) ++ joinRecords rs := by
  unfold joinRecords
  rw [List.map_cons, List.flatten_cons]

lemma runLines_append (st : ParseState) (l1 l2 : List String) :
    runLines st (l1 ++ l2) =
      match runLines st l1 with
      | .error e => .error e
      | .ok st1 => runLines st1 l2 := by
  induction l1 generalizing st with
  | nil => rfl
  | cons l ls ih =>
    rw [show runLines st ((l :: ls) ++ l2) =
      (match processLine st l with
        | Except.error e => Except.error e
        | Except.ok st2 => runLines st2 (ls ++ l2)) from rfl]
    rw [show runLines st (l :: ls) =
      (match processLine st l with
        | Except.error e => Except.error e
        | Except.ok st2 => runLines st2 ls) from rfl]
    cases hp : processLine st l with
    | error e => rfl
    | ok st1 => exact ih st1

lemma setSeen_eq_self (st : ParseState) (b : Bool) (h : st.seen_entry = b) :
    setSeen b st = st := by
  cases st
  simp only [setSeen]
  simp_all

lemma processLine_setSeen (st : ParseState) (b : Bool) (l : String)
    (hl : l ≠ "") :
    processLine (setSeen b st) l =
      match processLine st l with
      | .error e => .error e
      | .ok st2 => .ok (setSeen b st2) := by
  unfold processLine
  rw [if_neg hl, if_neg hl]
  have he : stepFields (setSeen b st).entry (setSeen b st).package_map l =
      stepFields st.entry st.package_map l := rfl
  rw [he]
  cases hsf : stepFields st.entry st.package_map l with
  | error e => rfl
  | ok pr =>
    obtain ⟨e1, p1⟩ := pr
    rfl

lemma runLines_setSeen (lines : List String) (h : ∀ l ∈ lines, l ≠ "") :
    ∀ (st : ParseState) (b : Bool),
    runLines (setSeen b st) lines =
      match runLines st lines with
      | .error e => .error e
      | .ok st2 => .ok (setSeen b st2) := by
  induction lines with
  | nil => intro st b; rfl
  | cons l ls ih =>
    intro st b
    have hl : l ≠ "" := h l (by simp)
    rw [show runLines (setSeen b st) (l :: ls) =
      (match processLine (setSeen b st) l with
        | Except.error e => Except.error e
        | Except.ok st2 => runLines st2 ls) from rfl]
    rw [show runLines st (l :: ls) =
      (match processLine st l with
        | Except.error e => Except.error e
        | Except.ok st2 => runLines st2 ls) from rfl]
    rw [processLine_setSeen st b l hl]
    cases hp : processLine st l with
    | error e => rfl
    | ok st1 => exact ih (fun x hx => h x (by simp [hx])) st1 b

lemma runLines_nonblank_frame (lines : List String) (h : ∀ l ∈ lines, l ≠ "") :
    ∀ st st2, runLines st lines = .ok st2 →
    st2.entries = st.entries ∧ st2.index = st.index ∧
      st2.seen_entry = st.seen_entry := by
  induction lines with
  | nil =>
    intro st st2 hh
    cases hh
    exact ⟨rfl, rfl, rfl⟩
  | cons l ls ih =>
    intro st st2 hh
    have hl : l ≠ "" := h l (by simp)
    unfold runLines at hh
    cases hp : processLine st l with
    | error e => rw [hp] at hh; exact Except.noConfusion hh
    | ok st1 =>
      rw [hp] at hh
      obtain ⟨h1, h2, h3⟩ := ih (fun x hx => h x (by simp [hx])) st1 st2 hh
      unfold processLine at hp
      rw [if_neg hl] at hp
      cases hsf : stepFields st.entry st.package_map l with
      | error e => rw [hsf] at hp; exact Except.noConfusion hp
      | ok pr =>
        obtain ⟨e1, p1⟩ := pr
        rw [hsf] at hp
        cases hp
        exact ⟨h1, h2, h3⟩

lemma runLines_entries_mono (lines : List String) : ∀ st st2,
    runLines st lines = .ok st2 → ∃ t, st2.entries = st.entries ++ t := by
  induction lines with
  | nil =>
    intro st st2 h
    cases h
    exact ⟨[], by simp⟩
  | cons l ls ih =>
    intro st st2 h
    unfold runLines at h
    cases hp : processLine st l with
    | error e => rw [hp] at h; exact Except.noConfusion h
    | ok st1 =>
      rw [hp] at h
      obtain ⟨t, ht⟩ := ih st1 st2 h
      by_cases hl : l = ""
      · subst hl
        by_cases hseen : st.seen_entry = false
        · have hst1 : st1 = { st with seen_entry := true } := by
            unfold processLine at hp
            rw [if_pos rfl, if_pos hseen] at hp
            cases hp
            rfl
          subst hst1
          exact ⟨t, ht⟩
        · have hst1 : st1 =
              ⟨st.entries ++ [finalize_entry st.entry st.index st.package_map],
                HistoryEntry.new, st.index + 1, st.seen_entry, []⟩ := by
            unfold processLine at hp
            rw [if_pos rfl, if_neg hseen] at hp
            cases hp
            rfl
          subst hst1
          refine ⟨finalize_entry st.entry st.index st.package_map :: t, ?_⟩
          have ht2 : st2.entries =
              (st.entries ++ [finalize_entry st.entry st.index st.package_map]) ++ t :=
            ht
          rw [ht2, List.append_assoc]
          rfl
      · unfold processLine at hp
        rw [if_neg hl] at hp
        cases hsf : stepFields st.entry st.package_map l with
        | error e => rw [hsf] at hp; exact Except.noConfusion hp
        | ok pr =>
          obtain ⟨e1, p1⟩ := pr
          rw [hsf] at hp
          cases hp
          exact ⟨t, ht⟩

lemma getLastD_helper (v : String) (xs : List String) (z : String) :
    ((v :: xs).getLast?).getD z = (xs.getLast?).getD v := by
  cases xs with
  | nil => rfl
  | cons y ys =>
    rw [List.getLast?_cons_cons]
    cases hys : (y :: ys).getLast? with
    | none => exact absurd hys (by simp)
    | some w => rfl

lemma lastFieldVal_cons (d l : String) (ls : List String) (z : String) :
    (lastFieldVal d (l :: ls)).getD z =
      (lastFieldVal d ls).getD ((fieldContrib d l).getD z) := by
  unfold lastFieldVal
  rw [List.filterMap_cons]
  cases hcl : fieldContrib d l with
  | none => rfl
  | some v => exact getLastD_helper v _ z

lemma lastFieldVal_append (d : String) (l1 l2 : List String) (c : String)
    (h : lastFieldVal d l2 = some c) : lastFieldVal d (l1 ++ l2) = some c := by
  unfold lastFieldVal at *
  rw [List.filterMap_append, List.getLast?_append, h]
  rfl

lemma dispatchField_scalars (e : HistoryEntry) (pm : PackageMap) (d v : String)
    (e2 : HistoryEntry) (pm2 : PackageMap)
    (h : dispatchField e pm d v = .ok (e2, pm2)) :
    e2.command_line = (if d = "Commandline" then some v else none).getD e.command_line ∧
    e2.start_date = (if d = "Start-Date" then some v else none).getD e.start_date ∧
    e2.end_date = (if d = "End-Date" then some v else none).getD e.end_date := by
  unfold dispatchField at h
  by_cases h1 : d = "Commandline"
  · rw [if_pos h1] at h
    cases h
    subst h1
    exact ⟨rfl, rfl, rfl⟩
  · rw [if_neg h1] at h
    rw [if_neg h1]
    by_cases hd2 : d = "End-Date"
    · rw [if_pos hd2] at h
      cases h
      subst hd2
      exact ⟨rfl, rfl, rfl⟩
    · rw [if_neg hd2] at h
      rw [if_neg hd2]
      by_cases hd3 : d = "Start-Date"
      · rw [if_pos hd3] at h
        cases h
        subst hd3
        exact ⟨rfl, rfl, rfl⟩
      · rw [if_neg hd3] at h
        rw [if_neg hd3]
        by_cases hd4 : d = "Install" ∨ d = "Purge" ∨ d = "Reinstall" ∨
            d = "Remove" ∨ d = "Upgrade"
        · rw [if_pos hd4] at h
          cases hpk : packages_from_action_line v with
          | error e4 => rw [hpk] at h; exact Except.noConfusion h
          | ok pk =>
            rw [hpk] at h
            cases h
            exact ⟨rfl, rfl, rfl⟩
        · rw [if_neg hd4] at h
          by_cases hd5 : d = "Error" ∨ d = "Requested-By"
          · rw [if_pos hd5] at h
            cases h
            exact ⟨rfl, rfl, rfl⟩
          · rw [if_neg hd5] at h
            exact Except.noConfusion h

lemma stepFields_scalars (e : HistoryEntry) (pm : PackageMap) (line : String)
    (e2 : HistoryEntry) (pm2 : PackageMap)
    (h : stepFields e pm line = .ok (e2, pm2)) :
    e2.command_line = (fieldContrib "Commandline" line).getD e.command_line ∧
    e2.start_date = (fieldContrib "Start-Date" line).getD e.start_date ∧
    e2.end_date = (fieldContrib "End-Date" line).getD e.end_date := by
  unfold stepFields at h
  unfold fieldContrib
  cases hp : parseFields line with
  | error e3 => rw [hp] at h; exact Except.noConfusion h
  | ok dv =>
    obtain ⟨d, v⟩ := dv
    rw [hp] at h
    have h2 : dispatchField e pm d v = .ok (e2, pm2) := h
    exact dispatchField_scalars e pm d v e2 pm2 h2

lemma runLines_scalars (lines : List String) (h : ∀ l ∈ lines, l ≠ "") :
    ∀ st st2, runLines st lines = .ok st2 →
    st2.entry.command_line =
      (lastFieldVal "Commandline" lines).getD st.entry.command_line ∧
    st2.entry.start_date =
      (lastFieldVal "Start-Date" lines).getD st.entry.start_date ∧
    st2.entry.end_date =
      (lastFieldVal "End-Date" lines).getD st.entry.end_date := by
  induction lines with
  | nil =>
    intro st st2 hh
    cases hh
    exact ⟨rfl, rfl, rfl⟩
  | cons l ls ih =>
    intro st st2 hh
    have hl : l ≠ "" := h l (by simp)
    unfold runLines at hh
    cases hp : processLine st l with
    | error e => rw [hp] at hh; exact Except.noConfusion hh
    | ok st1 =>
      rw [hp] at hh
      obtain ⟨hc, hs, he⟩ := ih (fun x hx => h x (by simp [hx])) st1 st2 hh
      unfold processLine at hp
      rw [if_neg hl] at hp
      cases hsf : stepFields st.entry st.package_map l with
      | error e => rw [hsf] at hp; exact Except.noConfusion hp
      | ok pr =>
        obtain ⟨e1, p1⟩ := pr
        rw [hsf] at hp
        cases hp
        obtain ⟨hc1, hs1, he1⟩ := stepFields_scalars st.entry st.package_map l e1 p1 hsf
        have hc2 : st2.entry.command_line =
            (lastFieldVal "Commandline" ls).getD e1.command_line := hc
        have hs2 : st2.entry.start_date =
            (lastFieldVal "Start-Date" ls).getD e1.start_date := hs
        have he2 : st2.entry.end_date =
            (lastFieldVal "End-Date" ls).getD e1.end_date := he
        refine ⟨?_, ?_, ?_⟩
        · rw [lastFieldVal_cons, ← hc1]
          exact hc2
        · rw [lastFieldVal_cons, ← hs1]
          exact hs2
        · rw [lastFieldVal_cons, ← he1]
          exact he2

lemma skip_first_blank (r1 rest : List String) (h1 : ∀ l ∈ r1, l ≠ "")
    (s : Nat) :
    entries_from_file (r1 ++ "" :: rest) s = entriesFromFileSeen (r1 ++ rest) s := by
  unfold entries_from_file entriesFromFileSeen
  have hinit : (⟨[], HistoryEntry.new, s, false, []⟩ : ParseState) =
      setSeen false ⟨[], HistoryEntry.new, s, true, []⟩ := rfl
  rw [hinit, runLines_append, runLines_append, runLines_setSeen r1 h1]
  cases hr : runLines ⟨[], HistoryEntry.new, s, true, []⟩ r1 with
  | error e => rfl
  | ok stT =>
    have hseenT : stT.seen_entry = true :=
      (runLines_nonblank_frame r1 h1 _ stT hr).2.2
    change (match runLines (setSeen false stT) ("" :: rest) with
        | Except.error e => Except.error e
        | Except.ok st =>
          if st.entry.command_line ≠ "" then
            Except.ok (st.entries ++ [finalize_entry st.entry st.index st.package_map])
          else Except.ok (ε := String) st.entries) =
      (match runLines stT rest with
        | Except.error e => Except.error e
        | Except.ok st =>
          if st.entry.command_line ≠ "" then
            Except.ok (st.entries ++ [finalize_entry st.entry st.index st.package_map])
          else Except.ok st.entries)
    have hstep : runLines (setSeen false stT) ("" :: rest) = runLines stT rest := by
      rw [show runLines (setSeen false stT) ("" :: rest) =
        runLines (setSeen true stT) rest from rfl]
      rw [setSeen_eq_self stT true hseenT]
    rw [hstep]

lemma runJoin (rs : List (List String)) (hlines : ∀ r ∈ rs, ∀ l ∈ r, l ≠ "") :
    ∀ st : ParseState, st.seen_entry = true →
    ∀ st2, runLines st (joinRecords rs) = .ok st2 →
    st2.entries.length = st.entries.length + rs.length ∧
    st2.seen_entry = true ∧ (rs = [] → st2 = st) ∧
    (rs ≠ [] → st2.entry = HistoryEntry.new) := by
  induction rs with
  | nil =>
    intro st hseen st2 h
    cases h
    exact ⟨by simp, hseen, fun _ => rfl, fun hne => absurd rfl hne⟩
  | cons r rs ih =>
    intro st hseen st2 h
    rw [joinRecords_cons, runLines_append] at h
    cases hrB : runLines st (r ++ [""]) with
    | error e => rw [hrB] at h; exact Except.noConfusion h
    | ok stB =>
      rw [hrB] at h
      rw [runLines_append] at hrB
      cases hrA : runLines st r with
      | error e => rw [hrA] at hrB; exact Except.noConfusion hrB
      | ok stA =>
        rw [hrA] at hrB
        obtain ⟨hA1, hA2, hA3⟩ :=
          runLines_nonblank_frame r (hlines r (by simp)) st stA hrA
        have hseenA : stA.seen_entry = true := by rw [hA3, hseen]
        have hPL : processLine stA "" = .ok
            (⟨stA.entries ++ [finalize_entry stA.entry stA.index stA.package_map],
              HistoryEntry.new, stA.index + 1, stA.seen_entry, []⟩ : ParseState) := by
          unfold processLine
          rw [if_pos rfl, if_neg (by simp [hseenA])]
        have hrB2 : runLines stA [""] = .ok
            (⟨stA.entries ++ [finalize_entry stA.entry stA.index stA.package_map],
              HistoryEntry.new, stA.index + 1, stA.seen_entry, []⟩ : ParseState) := by
          rw [show runLines stA [""] =
            (match processLine stA "" with
              | Except.error e => Except.error e
              | Except.ok s2 => runLines s2 []) from rfl, hPL]
          rfl
        have hrB3 : runLines stA [""] = Except.ok stB := hrB
        rw [hrB2] at hrB3
        have hstB : stB =
            ⟨stA.entries ++ [finalize_entry stA.entry stA.index stA.package_map],
              HistoryEntry.new, stA.index + 1, stA.seen_entry, []⟩ :=
          (Except.ok.inj hrB3).symm
        have hseenB : stB.seen_entry = true := by rw [hstB]; exact hseenA
        obtain ⟨hL, hS, hNil, hNe⟩ :=
          ih (fun r2 hr2 => hlines r2 (by simp [hr2])) stB hseenB st2 h
        have hBlen : stB.entries.length = st.entries.length + 1 := by
          rw [hstB]
          simp [hA1]
        refine ⟨?_, hS, ?_, fun _ => ?_⟩
        · rw [hL, hBlen]
          simp
          omega
        · intro habs
          exact absurd habs (List.cons_ne_nil r rs)
        · by_cases hrs : rs = []
          · rw [hNil hrs, hstB]
          · exact hNe hrs

lemma seenFile_count (rs : List (List String))
    (hlines : ∀ r ∈ rs, ∀ l ∈ r, l ≠ "") (s : Nat) (out : List HistoryEntry)
    (h : entriesFromFileSeen (joinRecords rs) s = .ok out) :
    out.length = rs.length := by
  unfold entriesFromFileSeen at h
  cases hr : runLines ⟨[], HistoryEntry.new, s, true, []⟩ (joinRecords rs) with
  | error e => rw [hr] at h; exact Except.noConfusion h
  | ok st2 =>
    rw [hr] at h
    have h2 : (if st2.entry.command_line ≠ "" then
        Except.ok (st2.entries ++ [finalize_entry st2.entry st2.index st2.package_map])
      else Except.ok (ε := String) st2.entries) = Except.ok out := h
    obtain ⟨hL, hS, hNil, hNe⟩ := runJoin rs hlines _ rfl st2 hr
    have hcmd : st2.entry.command_line = "" := by
      by_cases hrs : rs = []
      · rw [hNil hrs]
        rfl
      · rw [hNe hrs]
        rfl
    rw [hcmd] at h2
    rw [if_neg (by simp)] at h2
    cases h2
    simpa using hL

lemma seenFile_head (r : List String) (rs : List (List String))
    (hr : ∀ l ∈ r, l ≠ "") (hrs : ∀ r2 ∈ rs, ∀ l ∈ r2, l ≠ "")
    (s : Nat) (out : List HistoryEntry)
    (h : entriesFromFileSeen (joinRecords (r :: rs)) s = .ok out) :
    ∃ stA, runLines ⟨[], HistoryEntry.new, s, true, []⟩ r = .ok stA ∧
      stA.index = s ∧
      out.head? = some (finalize_entry stA.entry stA.index stA.package_map) := by
  unfold entriesFromFileSeen at h
  have hj : joinRecords (r :: rs) = r ++ "" :: joinRecords rs := by
    rw [joinRecords_cons, List.append_assoc]
    rfl
  rw [hj, runLines_append] at h
  cases hrA : runLines ⟨[], HistoryEntry.new, s, true, []⟩ r with
  | error e => rw [hrA] at h; exact Except.noConfusion h
  | ok stA =>
    rw [hrA] at h
    obtain ⟨hA1, hA2, hA3⟩ := runLines_nonblank_frame r hr _ stA hrA
    refine ⟨stA, rfl, hA2, ?_⟩
    have hseenA : stA.seen_entry = true := hA3
    have hPL : processLine stA "" = .ok
        (⟨stA.entries ++ [finalize_entry stA.entry stA.index stA.package_map],
          HistoryEntry.new, stA.index + 1, stA.seen_entry, []⟩ : ParseState) := by
      unfold processLine
      rw [if_pos rfl, if_neg (by simp [hseenA])]
    have h2 : (match runLines stA ("" :: joinRecords rs) with
        | Except.error e => Except.error e
        | Except.ok st =>
          if st.entry.command_line ≠ "" then
            Except.ok (st.entries ++ [finalize_entry st.entry st.index st.package_map])
          else Except.ok (ε := String) st.entries) = Except.ok out := h
    rw [show runLines stA ("" :: joinRecords rs) =
      (match processLine stA "" with
        | Except.error e => Except.error e
        | Except.ok s2 => runLines s2 (joinRecords rs)) from rfl, hPL] at h2
    have h3 : (match runLines
        (⟨stA.entries ++ [finalize_entry stA.entry stA.index stA.package_map],
          HistoryEntry.new, stA.index + 1, stA.seen_entry, []⟩ : ParseState)
        (joinRecords rs) with
      | Except.error e => Except.error e
      | Except.ok st =>
        if st.entry.command_line ≠ "" then
          Except.ok (st.entries ++ [finalize_entry st.entry st.index st.package_map])
        else Except.ok (ε := String) st.entries) = Except.ok out := h2
    cases hrC : runLines
        (⟨stA.entries ++ [finalize_entry stA.entry stA.index stA.package_map],
          HistoryEntry.new, stA.index + 1, stA.seen_entry, []⟩ : ParseState)
        (joinRecords rs) with
    | error e => rw [hrC] at h3; exact Except.noConfusion h3
    | ok stC =>
      rw [hrC] at h3
      obtain ⟨t, ht⟩ := runLines_entries_mono (joinRecords rs) _ stC hrC
      have hA1b : stA.entries = [] := hA1
      have hfin : stC.entries =
          finalize_entry stA.entry stA.index stA.package_map :: t := by
        have ht2 : stC.entries =
            (stA.entries ++ [finalize_entry stA.entry stA.index stA.package_map]) ++ t :=
          ht
        rw [ht2, hA1b]
        rfl
      have h4 : (if stC.entry.command_line ≠ "" then
          Except.ok (stC.entries ++ [finalize_entry stC.entry stC.index stC.package_map])
        else Except.ok (ε := String) stC.entries) = Except.ok out := h3
      split_ifs at h4 with hc <;> cases h4 <;> rw [hfin] <;> rfl

/-- C2: when the first line of a file is non-blank, the blank line ending the
first record is consumed as the presumed leading separator without
finalizing: the parse equals the seen-flag-set parse of the file with the
first and second records concatenated, the file yields one fewer transaction
than it has records, and the first emitted transaction's scalar fields are
the last values set across the merged record — in particular record 2's
command line and dates when record 2 sets them. -/
theorem claim_c2_leading_blank_merges_records (r1 r2 : List String)
    (rs : List (List String)) (s : Nat)
    (h1 : ∀ l ∈ r1, l ≠ "") (h1ne : r1 ≠ []) (h2 : ∀ l ∈ r2, l ≠ "")
    (hrs : ∀ r ∈ rs, ∀ l ∈ r, l ≠ "") :
    entries_from_file (joinRecords (r1 :: r2 :: rs)) s =
      entriesFromFileSeen (joinRecords ((r1 ++ r2) :: rs)) s ∧
    (∀ out, entries_from_file (joinRecords (r1 :: r2 :: rs)) s = .ok out →
      out.length + 1 = (r1 :: r2 :: rs).length ∧
      ∀ e, out.head? = some e →
        e.command_line =
          finalizeCommandLine ((lastFieldVal "Commandline" (r1 ++ r2)).getD "") ∧
        e.start_date = (lastFieldVal "Start-Date" (r1 ++ r2)).getD "" ∧
        e.end_date = (lastFieldVal "End-Date" (r1 ++ r2)).getD "" ∧
        (∀ c, lastFieldVal "Commandline" r2 = some c →
          e.command_line = finalizeCommandLine c) ∧
        (∀ c, lastFieldVal "Start-Date" r2 = some c → e.start_date = c) ∧
        (∀ c, lastFieldVal "End-Date" r2 = some c → e.end_date = c)) := by
  have h12 : ∀ l ∈ r1 ++ r2, l ≠ "" := by
    intro l hl
    rcases List.mem_append.mp hl with hm | hm
    · exact h1 l hm
    · exact h2 l hm
  have hmergedlines : ∀ r ∈ (r1 ++ r2) :: rs, ∀ l ∈ r, l ≠ "" := by
    intro r hrm
    rcases List.mem_cons.mp hrm with rfl | hrm2
    · exact h12
    · exact hrs r hrm2
  have heq : entries_from_file (joinRecords (r1 :: r2 :: rs)) s =
      entriesFromFileSeen (joinRecords ((r1 ++ r2) :: rs)) s := by
    have hj1 : joinRecords (r1 :: r2 :: rs) = r1 ++ "" :: joinRecords (r2 :: rs) := by
      rw [joinRecords_cons, List.append_assoc]
      rfl
    have hj2 : r1 ++ joinRecords (r2 :: rs) = joinRecords ((r1 ++ r2) :: rs) := by
      rw [joinRecords_cons, joinRecords_cons]
      simp [List.append_assoc]
    rw [hj1, skip_first_blank r1 _ h1 s, hj2]
  refine ⟨heq, ?_⟩
  intro out hout
  rw [heq] at hout
  have hlenout := seenFile_count ((r1 ++ r2) :: rs) hmergedlines s out hout
  refine ⟨by rw [hlenout]; simp, ?_⟩
  intro e he
  obtain ⟨stA, hrA, hidxA, hheadA⟩ := seenFile_head (r1 ++ r2) rs h12 hrs s out hout
  rw [hheadA] at he
  obtain rfl := (Option.some.inj he).symm
  obtain ⟨hcA, hsA, heA⟩ := runLines_scalars (r1 ++ r2) h12 _ stA hrA
  have hcA2 : stA.entry.command_line =
      (lastFieldVal "Commandline" (r1 ++ r2)).getD "" := hcA
  have hsA2 : stA.entry.start_date =
      (lastFieldVal "Start-Date" (r1 ++ r2)).getD "" := hsA
  have heA2 : stA.entry.end_date =
      (lastFieldVal "End-Date" (r1 ++ r2)).getD "" := heA
  refine ⟨?_, ?_, ?_, ?_, ?_, ?_⟩
  · show finalizeCommandLine stA.entry.command_line = _
    rw [hcA2]
  · exact hsA2
  · exact heA2
  · intro c hc
    show finalizeCommandLine stA.entry.command_line = _
    rw [hcA2, lastFieldVal_append "Commandline" r1 r2 c hc]
    rfl
  · intro c hc
    show stA.entry.start_date = _
    rw [hsA2, lastFieldVal_append "Start-Date" r1 r2 c hc]
    rfl
  · intro c hc
    show stA.entry.end_date = _
    rw [heA2, lastFieldVal_append "End-Date" r1 r2 c hc]
    rfl

/-- The single transaction the C2 witness file parses to: scalars from the
second record, the action line from the first. -/
def mergedC2Entry : HistoryEntry :=
  { affected := [("Install", [("amd64", ["a"])])], altered := 1,
    command_line := "bbb", end_date := "2024-01-02  03:04:06", id := 1,
    start_date := "2024-01-02  03:04:05" }

/-- C2 witness: a two-record file whose first line is non-blank parses to a
single merged transaction whose command line and dates come from the second
record. -/
theorem claim_c2_leading_blank_merges_records_witness :
    entries_from_file (joinRecords [["Commandline: aaa", "Install: a:amd64"],
        ["Commandline: bbb", "Start-Date: 2024-01-02  03:04:05",
         "End-Date: 2024-01-02  03:04:06"]]) 1 = .ok [mergedC2Entry] ∧
    [mergedC2Entry].length + 1 = 2 ∧
    mergedC2Entry.command_line = finalizeCommandLine "bbb" ∧
    mergedC2Entry.start_date = "2024-01-02  03:04:05" ∧
    mergedC2Entry.end_date = "2024-01-02  03:04:06" := by
  have h := claim_c2_leading_blank_merges_records
    ["Commandline: aaa", "Install: a:amd64"]
    ["Commandline: bbb", "Start-Date: 2024-01-02  03:04:05",
     "End-Date: 2024-01-02  03:04:06"] [] 1
    (by decide) (by decide) (by decide) (by decide)
  obtain ⟨hlen, hhead⟩ := h.2 [mergedC2Entry] rfl
  obtain ⟨hc, hs, he, hc2, hs2, he2⟩ := hhead mergedC2Entry rfl
  exact ⟨rfl, hlen, hc2 "bbb" rfl, hs2 "2024-01-02  03:04:05" rfl,
    he2 "2024-01-02  03:04:06" rfl⟩

end AptHistory
